import Mathlib

/-!
# Verification of the swap-and-match board engine

A shallow embedding of `src/board.rs` (the `Board` type and its operations)
together with the collaborator types (`Pos`, `BitBoard`, `MatchPattern`,
`Match`) that the crate imports from modules not present in the sources;
those are modelled from the specification where noted.

Pieces are walls, empties, or regular pieces with a piece type and a set of
movable directions.  The board stores one bitboard per piece type, an empty
bitboard, four movability bitboards, and a FIFO queue of changed positions.
-/

namespace SwapMatch

/-- Modelled from the spec: `Position` from the missing `position` module —
an integer (x, y) grid coordinate, 0-based, y grows upward. -/
structure Pos where
  x : Nat
  y : Nat
deriving DecidableEq, Repr

/-- Componentwise addition of positions (spec: `offset(delta)`). -/
def Pos.add (a b : Pos) : Pos :=
  ⟨a.x + b.x, a.y + b.y⟩

/-- Componentwise subtraction (spec: `delta(other)`, unchecked); `Nat`
truncation stands in for the unchecked machine subtraction, which the
board code only invokes when the result cannot underflow. -/
def Pos.sub (a b : Pos) : Pos :=
  ⟨a.x - b.x, a.y - b.y⟩

/-- Checked componentwise subtraction: `none` models the underflow panic of
the unchecked machine subtraction on a debug build. -/
def Pos.subChecked (a b : Pos) : Option Pos :=
  if b.x ≤ a.x ∧ b.y ≤ a.y then some ⟨a.x - b.x, a.y - b.y⟩ else none

/-- Modelled from the spec: the missing `bitboard` module's `BitBoard` — a
per-cell boolean grid, represented extensionally. -/
def BitBoard : Type :=
  Pos → Bool

/-- The all-clear bitboard (`BitBoard::new`). -/
def BitBoard.new : BitBoard :=
  fun _ => false

/-- `BitBoard::is_set`. -/
def BitBoard.isSet (b : BitBoard) (p : Pos) : Bool :=
  b p

/-- `BitBoard::set`. -/
def BitBoard.set (b : BitBoard) (p : Pos) : BitBoard :=
  fun q => if q = p then true else b q

/-- `BitBoard::unset`. -/
def BitBoard.unset (b : BitBoard) (p : Pos) : BitBoard :=
  fun q => if q = p then false else b q

/-- `BitBoard::swap`: exchanges the bits of two cells. -/
def BitBoard.swap (b : BitBoard) (p q : Pos) : BitBoard :=
  fun r => if r = p then b q else if r = q then b p else b r

/-- The four cardinal directions (`piece.rs: Direction`). -/
inductive Direction where
  | north
  | south
  | east
  | west
deriving DecidableEq, Repr

/-- A set of movable directions (`EnumSet<Direction>`). -/
structure Dirs where
  north : Bool
  south : Bool
  east : Bool
  west : Bool
deriving DecidableEq, Repr

/-- Membership in a direction set. -/
def Dirs.mem (d : Dirs) : Direction → Bool
  | .north => d.north
  | .south => d.south
  | .east => d.east
  | .west => d.west

/-- `ALL_DIRECTIONS`. -/
def allDirections : Dirs :=
  ⟨true, true, true, true⟩

/-- The empty direction set (`EnumSet::new()`). -/
def noDirections : Dirs :=
  ⟨false, false, false, false⟩

/-- Piece types; the crate's tests instantiate them with characters. -/
def PieceType : Type :=
  Char

instance : DecidableEq PieceType :=
  inferInstanceAs (DecidableEq Char)

instance : Repr PieceType :=
  inferInstanceAs (Repr Char)

/-- `Piece`: a wall, an empty space, or a regular piece with a type and a
set of movable directions. -/
inductive Piece where
  | wall
  | empty
  | regular (t : PieceType) (dirs : Dirs)

/-- Modelled from the spec: `MatchPattern` from the missing `matching`
module — a piece type, relative offsets ("spaces"), and an integer rank. -/
structure MatchPattern where
  pieceType : PieceType
  spaces : List Pos
  rank : Nat
deriving DecidableEq, Repr

/-- Modelled from the spec: `Match` — the pattern matched, the triggering
changed position, and the absolute board positions of the match. -/
structure BoardMatch where
  pattern : MatchPattern
  changedPos : Pos
  boardPos : List Pos
deriving DecidableEq, Repr

/-- `BoardState`: width, height, per-type bitboards (a `HashMap` modelled
as an association list), the empty bitboard, four movability bitboards,
and the FIFO queue of changed positions. -/
structure BoardState where
  width : Nat
  height : Nat
  pieces : List (PieceType × BitBoard)
  empties : BitBoard
  movableDirections : Direction → BitBoard
  lastChanged : List Pos

/-- `BoardState::new`: an all-wall board of the given size. -/
def BoardState.new (width height : Nat) : BoardState where
  width := width
  height := height
  pieces := []
  empties := BitBoard.new
  movableDirections := fun _ => BitBoard.new
  lastChanged := []

/-- `HashMap::get` on the association-list model. -/
def lookupType (l : List (PieceType × BitBoard)) (t : PieceType) : Option BitBoard :=
  (l.find? (fun tb => tb.1 = t)).map (fun tb => tb.2)

/-- `HashMap::entry(t).and_modify(f)`: modify the entry for `t` if present. -/
def modifyEntry (t : PieceType) (f : BitBoard → BitBoard) :
    List (PieceType × BitBoard) → List (PieceType × BitBoard)
  | [] => []
  | tb :: rest =>
    if tb.1 = t then (tb.1, f tb.2) :: rest else tb :: modifyEntry t f rest

/-- `HashMap::entry(t).and_modify(f).or_insert_with(g)`. -/
def modifyOrInsert (t : PieceType) (f : BitBoard → BitBoard) (dflt : BitBoard)
    (l : List (PieceType × BitBoard)) : List (PieceType × BitBoard) :=
  if (l.find? (fun tb => tb.1 = t)).isSome then modifyEntry t f l else l ++ [(t, dflt)]

/-- `Board::piece_type`: the type of the first per-type bitboard with the
bit at `pos` set (the HashMap iteration modelled in list order). -/
def pieceTypeAt (l : List (PieceType × BitBoard)) (pos : Pos) : Option PieceType :=
  l.findSome? (fun tb => if tb.2.isSet pos then some tb.1 else none)

/-- `Board::movable_directions`: reads the four movability bitboards. -/
def BoardState.movableDirsAt (s : BoardState) (pos : Pos) : Dirs where
  north := (s.movableDirections .north).isSet pos
  south := (s.movableDirections .south).isSet pos
  east := (s.movableDirections .east).isSet pos
  west := (s.movableDirections .west).isSet pos

/-- `Board::set_movable_directions`. -/
def BoardState.setMovableDirs (s : BoardState) (pos : Pos) (d : Dirs) : BoardState :=
  { s with movableDirections := fun dir =>
      if d.mem dir then (s.movableDirections dir).set pos
      else (s.movableDirections dir).unset pos }

/-- `Board::is_within_board`. -/
def BoardState.within (s : BoardState) (pos : Pos) : Bool :=
  pos.x < s.width && pos.y < s.height

/-- The body of `Board::piece` after its bounds check: empty if the empty
bit is set, else the regular piece of the one type bit set, else a wall. -/
def pieceU (s : BoardState) (pos : Pos) : Piece :=
  if s.empties.isSet pos then Piece.empty
  else
    match pieceTypeAt s.pieces pos with
    | none => Piece.wall
    | some t => Piece.regular t (s.movableDirsAt pos)

/-- `Board::piece`, with `none` modelling the `OutOfBounds` panic. -/
def pieceOp (s : BoardState) (pos : Pos) : Option Piece :=
  if s.within pos then some (pieceU s pos) else none

/-- The `if let Some(piece_type) = self.piece_type(pos)` step of
`set_piece`: clear the cell's present type bit, if any. -/
def clearTypeBit (l : List (PieceType × BitBoard)) (pos : Pos) :
    List (PieceType × BitBoard) :=
  match pieceTypeAt l pos with
  | some t => modifyEntry t (fun b => b.unset pos) l
  | none => l

/-- The body of `Board::set_piece` after its bounds check: pushes `pos`
onto the change queue, records the previous piece, clears the present
type bit, then writes the masks for the new piece.  Returns the previous
piece and the new state. -/
def setPieceU (s : BoardState) (pos : Pos) (pc : Piece) : Piece × BoardState :=
  let s1 : BoardState := { s with lastChanged := s.lastChanged ++ [pos] }
  let old := pieceU s1 pos
  let s2 : BoardState := { s1 with pieces := clearTypeBit s1.pieces pos }
  let s3 : BoardState :=
    match pc with
    | .regular t dirs =>
      let s3a := { s2 with pieces := modifyOrInsert t (fun b => b.set pos) (BitBoard.new.set pos) s2.pieces }
      let s3b := { s3a with empties := s3a.empties.unset pos }
      s3b.setMovableDirs pos dirs
    | .empty =>
      let s3a := { s2 with empties := s2.empties.set pos }
      s3a.setMovableDirs pos allDirections
    | .wall =>
      let s3a := { s2 with empties := s2.empties.unset pos }
      s3a.setMovableDirs pos noDirections
  (old, s3)

/-- `Board::set_piece`, with `none` modelling the `OutOfBounds` panic. -/
def setPieceOp (s : BoardState) (pos : Pos) (pc : Piece) : Option (Piece × BoardState) :=
  if s.within pos then some (setPieceU s pos pc) else none

/-- One `if let Some(..) = possible_type { entry.and_modify(swap) }` step
of `swap_always`. -/
def swapTypeEntry (ot : Option PieceType) (first second : Pos)
    (l : List (PieceType × BitBoard)) : List (PieceType × BitBoard) :=
  match ot with
  | some a => modifyEntry a (fun b => b.swap first second) l
  | none => l

/-- `Board::swap_always`: no-op on equal positions; otherwise enqueues both
positions, swaps the empty and movability bits, and swaps the per-type
bits when the two cells' types differ. -/
def swapAlways (s : BoardState) (first second : Pos) : BoardState :=
  if first = second then s
  else
    let s1 : BoardState := { s with lastChanged := s.lastChanged ++ [first, second] }
    let s2 : BoardState := { s1 with
      empties := s1.empties.swap first second,
      movableDirections := fun d => (s1.movableDirections d).swap first second }
    let t1 := pieceTypeAt s2.pieces first
    let t2 := pieceTypeAt s2.pieces second
    if t1 = t2 then s2
    else
      let s3 : BoardState := { s2 with pieces := swapTypeEntry t1 first second s2.pieces }
      { s3 with pieces := swapTypeEntry t2 first second s3.pieces }

/-- A swap rule: a predicate over the (read-only) board state and the two
positions to swap. -/
def SwapRule : Type :=
  BoardState → Pos → Pos → Bool

/-- `Board::is_vertically_movable`. -/
def isVerticallyMovable (s : BoardState) (from_ to_ : Pos) : Bool :=
  if to_.y > from_.y then (s.movableDirections .north).isSet from_
  else if to_.y < from_.y then (s.movableDirections .south).isSet from_
  else true

/-- `Board::is_horizontally_movable`. -/
def isHorizontallyMovable (s : BoardState) (from_ to_ : Pos) : Bool :=
  if to_.x > from_.x then (s.movableDirections .east).isSet from_
  else if to_.x < from_.x then (s.movableDirections .west).isSet from_
  else true

/-- `Board::is_movable`. -/
def isMovablePiece (s : BoardState) (from_ to_ : Pos) : Bool :=
  isVerticallyMovable s from_ to_ && isHorizontallyMovable s from_ to_

/-- `Board::are_pieces_movable`: the built-in swap rule. -/
def arePiecesMovable : SwapRule :=
  fun s first second => isMovablePiece s first second && isMovablePiece s second first

/-- `Board`: the registered patterns (sorted), the swap-rule chain (built-in
movability rule first), and the state. -/
structure Board where
  patterns : List MatchPattern
  swapRules : List SwapRule
  state : BoardState

/-- Insertion step of the stable descending-rank sort used at
construction. -/
def insertByRankDesc (p : MatchPattern) : List MatchPattern → List MatchPattern
  | [] => [p]
  | q :: rest => if q.rank < p.rank then p :: q :: rest else q :: insertByRankDesc p rest

/-- `patterns.sort_by(|a, b| b.rank().cmp(&a.rank()))`: stable sort by
descending rank. -/
def sortByRankDesc (l : List MatchPattern) : List MatchPattern :=
  l.foldr insertByRankDesc []

/-- `Board::new`: sorts the patterns by descending rank and prepends the
built-in movability rule to the swap-rule chain. -/
def Board.new (initialState : BoardState) (patterns : List MatchPattern)
    (swapRules : List SwapRule) : Board where
  patterns := sortByRankDesc patterns
  swapRules := arePiecesMovable :: swapRules
  state := initialState

/-- The body of `Board::swap_pieces` after its bounds check: if every rule
in the chain accepts, perform the unconditional swap and return true;
otherwise leave the state unchanged and return false. -/
def swapPiecesU (b : Board) (first second : Pos) : Bool × Board :=
  if b.swapRules.all (fun rule => rule b.state first second) then
    (true, { b with state := swapAlways b.state first second })
  else
    (false, b)

/-- `Board::swap_pieces`, with `none` modelling the `OutOfBounds` panic. -/
def swapPiecesOp (b : Board) (first second : Pos) : Option (Bool × Board) :=
  if b.state.within first && b.state.within second then some (swapPiecesU b first second)
  else none

/-- `Board::change_origin`: translate every offset by the anchor. -/
def changeOrigin (positions : List Pos) (origin : Pos) : List Pos :=
  positions.map (fun original => original.add origin)

/-- `Board::check_variant`: test one translated placement of the pattern. -/
def checkVariant (board : BitBoard) (pattern : List Pos) (newOrigin : Pos) :
    Option (List Pos) :=
  let gridPos := changeOrigin pattern newOrigin
  if gridPos.all (fun pos => board.isSet pos) then some gridPos else none

/-- `Board::check_pattern`: try every variant anchored at `pos - o`,
skipping offsets that would place the anchor outside the board. -/
def checkPattern (board : BitBoard) (pattern : List Pos) (pos : Pos) :
    Option (List Pos) :=
  pattern.findSome? (fun original =>
    if original.x > pos.x || original.y > pos.y then none
    else checkVariant board pattern (pos.sub original))

/-- The offset scan of `check_pattern` with the underflow-panic model of
subtraction: an overall `none` marks the panic, `some r` a normal return. -/
def checkPatternCheckedGo (board : BitBoard) (pattern : List Pos) (pos : Pos) :
    List Pos → Option (Option (List Pos))
  | [] => some none
  | original :: rest =>
    if original.x > pos.x || original.y > pos.y then
      checkPatternCheckedGo board pattern pos rest
    else
      match pos.subChecked original with
      | none => none
      | some anchor =>
        match checkVariant board pattern anchor with
        | some found => some (some found)
        | none => checkPatternCheckedGo board pattern pos rest

/-- `check_pattern` with the underflow-panic model of subtraction. -/
def checkPatternChecked (board : BitBoard) (pattern : List Pos) (pos : Pos) :
    Option (Option (List Pos)) :=
  checkPatternCheckedGo board pattern pos pattern

/-- The pattern search `next_match` performs for one changed position. -/
def matchAt (patterns : List MatchPattern) (pieces : List (PieceType × BitBoard))
    (pos : Pos) : Option BoardMatch :=
  patterns.findSome? (fun pattern =>
    (lookupType pieces pattern.pieceType).bind (fun board =>
      (checkPattern board pattern.spaces pos).map
        (fun positions => BoardMatch.mk pattern pos positions)))

/-- The queue-draining loop of `Board::next_match`: pop positions until one
matches or the queue empties; returns the match and the remaining queue. -/
def nextMatchGo (patterns : List MatchPattern) (pieces : List (PieceType × BitBoard)) :
    List Pos → Option BoardMatch × List Pos
  | [] => (none, [])
  | p :: rest =>
    match matchAt patterns pieces p with
    | some m => (some m, rest)
    | none => nextMatchGo patterns pieces rest

/-- `Board::next_match`. -/
def nextMatch (b : Board) : Option BoardMatch × Board :=
  let r := nextMatchGo b.patterns b.state.pieces b.state.lastChanged
  (r.1, { b with state := { b.state with lastChanged := r.2 } })

/-- One row step of `Board::trickle_column`'s scan: running state is the
FIFO of pending empty rows, the move list, and the board state. -/
def trickleColumnStep (x : Nat) :
    List Nat × List (Pos × Pos) × BoardState → Nat → List Nat × List (Pos × Pos) × BoardState
  | (emptySpaces, moves, s), y =>
    let currentPos : Pos := ⟨x, y⟩
    if s.empties.isSet currentPos then (emptySpaces ++ [y], moves, s)
    else if (s.movableDirections .south).isSet currentPos then
      match emptySpaces with
      | [] => (emptySpaces, moves, s)
      | spaceToFill :: restSpaces =>
        (restSpaces ++ [y], moves ++ [(⟨x, y⟩, ⟨x, spaceToFill⟩)],
          swapAlways s currentPos ⟨x, spaceToFill⟩)
    else ([], moves, s)

/-- `Board::trickle_column`: bottom-to-top scan of one column, dropping
south-movable pieces into the oldest pending empty row. -/
def trickleColumn (s : BoardState) (x : Nat) : List (Pos × Pos) × BoardState :=
  let r := (List.range s.height).foldl (trickleColumnStep x) ([], [], s)
  (r.2.1, r.2.2)

/-- The row-descending scan of `Board::trickle_piece_down`'s while loop:
the lowest row reachable from `y` through empty cells directly below. -/
def dropY (s : BoardState) (x : Nat) : Nat → Nat
  | 0 => 0
  | y + 1 => if s.empties.isSet ⟨x, y⟩ then dropY s x y else y + 1

/-- `Board::trickle_piece_down`: slide a south-movable piece down through
the contiguous empty run directly below it. -/
def tricklePieceDown (s : BoardState) (piecePos : Pos) : Pos × BoardState :=
  if !(s.movableDirections .south).isSet piecePos then (piecePos, s)
  else
    let nextY := dropY s piecePos.x piecePos.y
    (⟨piecePos.x, nextY⟩, swapAlways s piecePos ⟨piecePos.x, nextY⟩)

/-- `Board::can_move_pos_down_diagonally`. -/
def canMovePosDownDiagonally (s : BoardState) (pos : Pos) (toWest : Bool) : Bool :=
  match toWest with
  | true => pos.x > 0 && pos.y > 0
  | false => pos.x < s.width - 1 && pos.y > 0

/-- `Board::move_pos_down_diagonally`. -/
def movePosDownDiagonally (pos : Pos) (toWest : Bool) : Pos :=
  match toWest with
  | true => ⟨pos.x - 1, pos.y - 1⟩
  | false => ⟨pos.x + 1, pos.y - 1⟩

/-- `Board::trickle_piece_to_side`: one diagonal step, guarded by bounds,
emptiness of the target, the piece's movability, and the adjacent-column
fill check. -/
def tricklePieceToSide (s : BoardState) (currentPos : Pos) (toWest checkAdj : Bool) :
    Pos × BoardState :=
  if !canMovePosDownDiagonally s currentPos toWest then (currentPos, s)
  else
    let emptyPos := movePosDownDiagonally currentPos toWest
    let isEmptyPos := s.empties.isSet emptyPos
    let horizontalDirBoard :=
      match toWest with
      | true => s.movableDirections .west
      | false => s.movableDirections .east
    let verticalDirBoard := s.movableDirections .south
    let isMov := horizontalDirBoard.isSet currentPos && verticalDirBoard.isSet currentPos
    let adjacentPos : Pos := ⟨emptyPos.x, currentPos.y⟩
    let willAdjFillSpace := checkAdj && verticalDirBoard.isSet adjacentPos &&
      !s.empties.isSet adjacentPos
    if !isEmptyPos || !isMov || willAdjFillSpace then (currentPos, s)
    else (emptyPos, swapAlways s currentPos emptyPos)

/-- `Board::trickle_piece_diagonally`: try west first, then east. -/
def tricklePieceDiagonally (s : BoardState) (piecePos : Pos) (checkAdj : Bool) :
    Pos × BoardState :=
  let r := tricklePieceToSide s piecePos true checkAdj
  if r.1 = piecePos then tricklePieceToSide r.2 piecePos false checkAdj else r

/-- The while loop of `trickle_piece_down` never rises. -/
theorem dropY_le (s : BoardState) (x : Nat) : ∀ y, dropY s x y ≤ y := by
  intro y
  induction y with
  | zero => simp [dropY]
  | succ y ih =>
    unfold dropY
    by_cases he : s.empties.isSet ⟨x, y⟩
    · simp only [he, if_true]
      exact Nat.le_trans ih (Nat.le_succ y)
    · simp [he]

/-- The down target keeps the column and never rises. -/
theorem tricklePieceDown_fst (s : BoardState) (p : Pos) :
    (tricklePieceDown s p).1.x = p.x ∧ (tricklePieceDown s p).1.y ≤ p.y := by
  unfold tricklePieceDown
  by_cases h : (s.movableDirections .south).isSet p
  · simp only [h, Bool.not_true, Bool.false_eq_true, if_false]
    exact ⟨by trivial, dropY_le s p.x p.y⟩
  · simp [h]

/-- A diagonal step either stays put or strictly descends. -/
theorem tricklePieceToSide_fst (s : BoardState) (p : Pos) (toWest checkAdj : Bool) :
    (tricklePieceToSide s p toWest checkAdj).1 = p ∨
      (tricklePieceToSide s p toWest checkAdj).1.y < p.y := by
  unfold tricklePieceToSide
  by_cases hb : canMovePosDownDiagonally s p toWest
  · simp only [hb, Bool.not_true, Bool.false_eq_true, if_false]
    set cond := (!s.empties.isSet (movePosDownDiagonally p toWest) ||
      !((match toWest with
        | true => s.movableDirections .west
        | false => s.movableDirections .east).isSet p &&
          (s.movableDirections .south).isSet p) ||
      (checkAdj && (s.movableDirections .south).isSet
          ⟨(movePosDownDiagonally p toWest).x, p.y⟩ &&
        !s.empties.isSet ⟨(movePosDownDiagonally p toWest).x, p.y⟩)) with hcond
    by_cases hc : cond
    · left
      simp [hc]
    · right
      simp only [hc, Bool.false_eq_true, if_false]
      have hy : 0 < p.y := by
        unfold canMovePosDownDiagonally at hb
        cases toWest <;> simp_all
      cases toWest <;> simp [movePosDownDiagonally] <;> omega
  · simp [hb]

/-- The west-then-east attempt either stays put or strictly descends. -/
theorem tricklePieceDiagonally_fst (s : BoardState) (p : Pos) (checkAdj : Bool) :
    (tricklePieceDiagonally s p checkAdj).1 = p ∨
      (tricklePieceDiagonally s p checkAdj).1.y < p.y := by
  unfold tricklePieceDiagonally
  by_cases h : (tricklePieceToSide s p true checkAdj).1 = p
  · simp only [h, if_true]
    exact tricklePieceToSide_fst _ p false checkAdj
  · simp only [h, if_false]
    rcases tricklePieceToSide_fst s p true checkAdj with h1 | h1
    · exact absurd h1 h
    · exact Or.inr h1

/-- The loop in `Board::trickle_piece`: fall straight down, then try a
diagonal step; repeat until the diagonal step makes no progress.  Returns
the recorded moves, the final position, and the final state. -/
def trickleLoop (s : BoardState) (pos : Pos) (checkAdj : Bool) :
    List (Pos × Pos) × Pos × BoardState :=
  let d := tricklePieceDown s pos
  let g := tricklePieceDiagonally d.2 d.1 checkAdj
  if h : g.1 = d.1 then
    ((if pos ≠ d.1 then [(pos, d.1)] else []), g.1, g.2)
  else
    let rest := trickleLoop g.2 g.1 checkAdj
    ((if pos ≠ d.1 then [(pos, d.1)] else []) ++ (d.1, g.1) :: rest.1, rest.2)
termination_by pos.y
decreasing_by
  rcases tricklePieceDiagonally_fst (tricklePieceDown s pos).2 (tricklePieceDown s pos).1
    checkAdj with h1 | h1
  · exact absurd h1 h
  · exact Nat.lt_of_lt_of_le h1 (tricklePieceDown_fst s pos).2

/-- `Board::trickle_piece`: empty cells are skipped, otherwise run the
cascade loop. -/
def tricklePiece (s : BoardState) (piecePos : Pos) (checkAdj : Bool) :
    List (Pos × Pos) × BoardState :=
  if s.empties.isSet piecePos then ([], s)
  else
    let r := trickleLoop s piecePos checkAdj
    (r.1, r.2.2)

/-- `Board::trickle_diagonally`: bottom-to-top, left-to-right scan running
`trickle_piece` with the adjacent-column check enabled. -/
def trickleDiagonally (s : BoardState) : List (Pos × Pos) × BoardState :=
  (List.range s.height).foldl (fun acc y =>
    (List.range s.width).foldl (fun acc2 x =>
      let r := tricklePiece acc2.2 ⟨x, y⟩ true
      (acc2.1 ++ r.1, r.2)) acc) ([], s)

/-- `Board::trickle`: compact every column, then diffuse diagonally. -/
def trickle (s : BoardState) : List (Pos × Pos) × BoardState :=
  let cols := (List.range s.width).foldl (fun acc x =>
    let r := trickleColumn acc.2 x
    (acc.1 ++ r.1, r.2)) ([], s)
  let diag := trickleDiagonally cols.2
  (cols.1 ++ diag.1, diag.2)

/-- The body of `Board::add_and_trickle` after `set_piece`'s bounds check:
set the piece, then trickle that piece only. -/
def addAndTrickleU (s : BoardState) (pos : Pos) (pc : Piece) :
    List (Pos × Pos) × BoardState :=
  let r := setPieceU s pos pc
  tricklePiece r.2 pos false

/-- `Board::add_and_trickle`, with `none` modelling the `OutOfBounds`
panic of the inner `set_piece`. -/
def addAndTrickleOp (s : BoardState) (pos : Pos) (pc : Piece) :
    Option (List (Pos × Pos) × BoardState) :=
  if s.within pos then some (addAndTrickleU s pos pc) else none

/-- The checked offset scan agrees with the unchecked one and never hits
the underflow panic. -/
theorem checkPatternCheckedGo_eq (board : BitBoard) (pattern : List Pos) (pos : Pos) :
    ∀ l, checkPatternCheckedGo board pattern pos l =
      some (l.findSome? (fun original =>
        if original.x > pos.x || original.y > pos.y then none
        else checkVariant board pattern (pos.sub original))) := by
  intro l
  induction l with
  | nil => rfl
  | cons o rest ih =>
    by_cases hg : o.x > pos.x || o.y > pos.y
    · simp only [checkPatternCheckedGo, hg, if_true, List.findSome?_cons, ih]
    · have hx : o.x ≤ pos.x ∧ o.y ≤ pos.y := by
        simp only [Bool.or_eq_true, decide_eq_true_eq] at hg
        omega
      have hsub : pos.subChecked o = some (pos.sub o) := by
        simp [Pos.subChecked, Pos.sub, hx.1, hx.2]
      simp only [checkPatternCheckedGo, hg, if_false, hsub, List.findSome?_cons]
      cases hv : checkVariant board pattern (pos.sub o) with
      | none => simpa [hv] using ih
      | some found => simp [hv]

/-- C10: `check_pattern` skips every offset with a component exceeding the
changed position's, so the unsigned anchor subtraction never underflows
(the panic-modelling checked variant always returns normally, with the
same result), and every anchor actually formed is an exact, non-negative
solution of `anchor + offset = pos`. -/
theorem claimC10_no_anchor_underflow (board : BitBoard) (pattern : List Pos) (pos : Pos) :
    checkPatternChecked board pattern pos = some (checkPattern board pattern pos) ∧
    ∀ o ∈ pattern, ¬(o.x > pos.x ∨ o.y > pos.y) → (pos.sub o).add o = pos := by
  constructor
  · exact checkPatternCheckedGo_eq board pattern pos pattern
  · intro o _ hle
    have hx : o.x ≤ pos.x := by omega
    have hy : o.y ≤ pos.y := by omega
    simp [Pos.sub, Pos.add, Nat.sub_add_cancel hx, Nat.sub_add_cancel hy]

/-- C9: `piece`, `set_piece` and `swap_pieces` hit the `OutOfBounds` hard
failure (modelled as `none`) exactly when a given position has `x ≥ width`
or `y ≥ height`; for in-bounds arguments they return normally. -/
theorem claimC9_out_of_bounds_iff (s : BoardState) (b : Board)
    (pos first second : Pos) (pc : Piece) :
    (pieceOp s pos = none ↔ ¬(pos.x < s.width ∧ pos.y < s.height)) ∧
    (setPieceOp s pos pc = none ↔ ¬(pos.x < s.width ∧ pos.y < s.height)) ∧
    (swapPiecesOp b first second = none ↔
      ¬((first.x < b.state.width ∧ first.y < b.state.height) ∧
        (second.x < b.state.width ∧ second.y < b.state.height))) := by
  refine ⟨?_, ?_, ?_⟩
  · by_cases h : s.within pos = true
    · simp only [pieceOp, h, if_true]
      simp only [BoardState.within, Bool.and_eq_true, decide_eq_true_eq] at h
      simp [h]
    · simp only [pieceOp, h, if_false]
      simp only [BoardState.within, Bool.and_eq_true, decide_eq_true_eq] at h
      simp [h]
  · by_cases h : s.within pos = true
    · simp only [setPieceOp, h, if_true]
      simp only [BoardState.within, Bool.and_eq_true, decide_eq_true_eq] at h
      simp [h]
    · simp only [setPieceOp, h, if_false]
      simp only [BoardState.within, Bool.and_eq_true, decide_eq_true_eq] at h
      simp [h]
  · by_cases h : (b.state.within first && b.state.within second) = true
    · simp only [swapPiecesOp, h, if_true]
      simp only [BoardState.within, Bool.and_eq_true, decide_eq_true_eq] at h
      simp [h]
    · simp only [swapPiecesOp, h, if_false]
      simp only [BoardState.within, Bool.and_eq_true, decide_eq_true_eq] at h
      tauto

/-- A board whose single user-supplied swap rule rejects every swap. -/
def rejectAllBoard : Board :=
  Board.new (BoardState.new 2 2) [] [fun _ _ _ => false]

/-- C6 counterexample: on a board whose user rule rejects everything,
swapping the in-bounds position (0,0) with itself returns false, not
true — the rule chain runs before the self-swap short circuit. -/
theorem claimC6_counterexample :
    rejectAllBoard.state.within ⟨0, 0⟩ = true ∧
    swapPiecesOp rejectAllBoard ⟨0, 0⟩ ⟨0, 0⟩ = some (false, rejectAllBoard) :=
  ⟨rfl, rfl⟩

/-- The built-in movability rule always accepts a self-swap. -/
theorem arePiecesMovable_self (s : BoardState) (p : Pos) :
    arePiecesMovable s p p = true := by
  simp [arePiecesMovable, isMovablePiece, isVerticallyMovable, isHorizontallyMovable]

/-- C6 amended: for every in-bounds position `p` and every board whose
user-supplied swap rules all accept `(p, p)`, `swap_pieces(p, p)` returns
true and leaves the whole board — every cell and the change queue —
unchanged, enqueueing nothing. -/
theorem claimC6_self_swap (s : BoardState) (pats : List MatchPattern)
    (rules : List SwapRule) (p : Pos) (hin : s.within p = true)
    (hrules : ∀ r ∈ rules, r s p p = true) :
    swapPiecesOp (Board.new s pats rules) p p = some (true, Board.new s pats rules) := by
  have hall : (Board.new s pats rules).swapRules.all
      (fun rule => rule (Board.new s pats rules).state p p) = true := by
    simp only [Board.new, List.all_cons, Bool.and_eq_true]
    exact ⟨arePiecesMovable_self s p, List.all_eq_true.2 hrules⟩
  have hswap : swapAlways s p p = s := by
    simp [swapAlways]
  simp only [swapPiecesOp, Board.new, BoardState.within] at hin ⊢
  simp only [hin, Bool.and_self, if_true]
  simp only [swapPiecesU] at hall ⊢
  simp only [Board.new] at hall
  simp [hall, hswap]

/-- C6 witness: the amended self-swap property evaluated on a concrete
rule-free 1×1 board. -/
theorem claimC6_self_swap_witness :
    swapPiecesOp (Board.new (BoardState.new 1 1) [] []) ⟨0, 0⟩ ⟨0, 0⟩ =
      some (true, Board.new (BoardState.new 1 1) [] []) :=
  claimC6_self_swap (BoardState.new 1 1) [] [] ⟨0, 0⟩ rfl (by simp)

/-- C5: whenever any rule of the swap-rule chain rejects, `swap_pieces`
returns false with the whole board state (masks and change queue)
unchanged; in particular the built-in movability rule rejects a swap of
`first` with the cell directly above it when `first` lacks North
movability, regardless of the other piece. -/
theorem claimC5_rule_rejection :
    (∀ (b : Board) (first second : Pos), b.state.within first = true →
      b.state.within second = true →
      b.swapRules.all (fun rule => rule b.state first second) = false →
      swapPiecesOp b first second = some (false, b)) ∧
    (∀ (s : BoardState) (pats : List MatchPattern) (rules : List SwapRule)
      (first second : Pos), s.within first = true → s.within second = true →
      second.x = first.x → second.y = first.y + 1 →
      (s.movableDirections .north).isSet first = false →
      swapPiecesOp (Board.new s pats rules) first second =
        some (false, Board.new s pats rules)) := by
  constructor
  · intro b first second h1 h2 hall
    simp [swapPiecesOp, h1, h2, swapPiecesU, hall]
  · intro s pats rules first second h1 h2 hx hy hn
    have hbuiltin : arePiecesMovable s first second = false := by
      have hv : isVerticallyMovable s first second = false := by
        simp [isVerticallyMovable, hy, hn]
      simp [arePiecesMovable, isMovablePiece, hv]
    have hall : List.all (arePiecesMovable :: rules) (fun rule => rule s first second)
        = false := by
      simp [hbuiltin]
    simp [swapPiecesOp, Board.new, swapPiecesU, hall, h1, h2]

/-- A board whose single user-supplied swap rule rejects every swap, used
to witness the generic rule-rejection clause. -/
def rejectAllBoardTall : Board :=
  Board.new (BoardState.new 1 2) [] [fun _ _ _ => false]

/-- C5 witness: both clauses evaluated concretely — a user rule rejecting
a swap on one board, and the built-in North-movability rule rejecting a
swap with the cell directly above on a fresh (all-wall) board. -/
theorem claimC5_rule_rejection_witness :
    swapPiecesOp rejectAllBoardTall ⟨0, 0⟩ ⟨0, 1⟩ = some (false, rejectAllBoardTall) ∧
    swapPiecesOp (Board.new (BoardState.new 1 2) [] []) ⟨0, 0⟩ ⟨0, 1⟩ =
      some (false, Board.new (BoardState.new 1 2) [] []) := by
  constructor
  · exact claimC5_rule_rejection.1 rejectAllBoardTall ⟨0, 0⟩ ⟨0, 1⟩ rfl rfl rfl
  · exact claimC5_rule_rejection.2 (BoardState.new 1 2) [] [] ⟨0, 0⟩ ⟨0, 1⟩
      rfl rfl rfl rfl rfl

/-- A C10 witness: the agreement theorem evaluated at a concrete board,
pattern and position. -/
theorem claimC10_no_anchor_underflow_witness :
    checkPatternChecked (BitBoard.new.set ⟨1, 1⟩) [⟨0, 0⟩, ⟨1, 0⟩] ⟨1, 1⟩ =
      some (checkPattern (BitBoard.new.set ⟨1, 1⟩) [⟨0, 0⟩, ⟨1, 0⟩] ⟨1, 1⟩) ∧
    (Pos.sub ⟨1, 1⟩ ⟨1, 0⟩).add ⟨1, 0⟩ = ⟨1, 1⟩ :=
  ⟨(claimC10_no_anchor_underflow (BitBoard.new.set ⟨1, 1⟩) [⟨0, 0⟩, ⟨1, 0⟩] ⟨1, 1⟩).1,
    (claimC10_no_anchor_underflow (BitBoard.new.set ⟨1, 1⟩) [⟨0, 0⟩, ⟨1, 0⟩] ⟨1, 1⟩).2
      ⟨1, 0⟩ (by simp) (by simp)⟩

/-- A match reported by the per-position pattern search is triggered at
the searched position. -/
theorem matchAt_changedPos (pats : List MatchPattern)
    (pieces : List (PieceType × BitBoard)) (p : Pos) (m : BoardMatch)
    (h : matchAt pats pieces p = some m) : m.changedPos = p := by
  obtain ⟨pat, _, hf⟩ := List.exists_of_findSome?_eq_some h
  obtain ⟨board, _, hmap⟩ := Option.bind_eq_some.1 hf
  obtain ⟨positions, _, hm2⟩ := Option.map_eq_some'.1 hmap
  rw [← hm2]

/-- The queue-draining loop, when it returns no match, has emptied the
queue and found no match at any queued position. -/
theorem nextMatchGo_none (pats : List MatchPattern)
    (pieces : List (PieceType × BitBoard)) :
    ∀ q, (nextMatchGo pats pieces q).1 = none →
      (nextMatchGo pats pieces q).2 = [] ∧ ∀ p ∈ q, matchAt pats pieces p = none := by
  intro q
  induction q with
  | nil => intro _; exact ⟨rfl, by simp⟩
  | cons p rest ih =>
    intro h
    cases hm : matchAt pats pieces p with
    | some m => simp [nextMatchGo, hm] at h
    | none =>
      simp only [nextMatchGo, hm] at h ⊢
      obtain ⟨h1, h2⟩ := ih h
      exact ⟨h1, by simpa [hm] using h2⟩

/-- The queue-draining loop, when it returns a match, split the queue into
a matchless prefix, the triggering position, and an untouched suffix that
becomes the new queue. -/
theorem nextMatchGo_some (pats : List MatchPattern)
    (pieces : List (PieceType × BitBoard)) :
    ∀ q m, (nextMatchGo pats pieces q).1 = some m →
      ∃ pre suf, q = pre ++ m.changedPos :: suf ∧
        (∀ p ∈ pre, matchAt pats pieces p = none) ∧
        matchAt pats pieces m.changedPos = some m ∧
        (nextMatchGo pats pieces q).2 = suf := by
  intro q
  induction q with
  | nil => intro m h; simp [nextMatchGo] at h
  | cons p rest ih =>
    intro m h
    cases hm : matchAt pats pieces p with
    | some m0 =>
      simp only [nextMatchGo, hm] at h ⊢
      cases h
      have hcp : m.changedPos = p := matchAt_changedPos pats pieces p m hm
      exact ⟨[], rest, by simp [hcp], by simp, by rwa [hcp], rfl⟩
    | none =>
      simp only [nextMatchGo, hm] at h ⊢
      obtain ⟨pre, suf, hq, hpre, hmm, hsuf⟩ := ih m h
      refine ⟨p :: pre, suf, by simp [hq], ?_, hmm, hsuf⟩
      intro p2 hp2
      rcases List.mem_cons.1 hp2 with h1 | h1
      · rwa [h1]
      · exact hpre p2 h1

/-- C4: `next_match` consumes the change queue in FIFO order — on a match
the queue splits into a matchless prefix, the triggering position, and
the remaining suffix which becomes the new queue; on no match the queue
is fully drained; popped positions are never re-inserted and the piece
masks are untouched; a position enqueued twice is checked twice and can
yield the same match both times. -/
theorem claimC4_fifo_queue (b : Board) :
    ((nextMatch b).2.state.pieces = b.state.pieces ∧
      (nextMatch b).2.state.empties = b.state.empties ∧
      (nextMatch b).2.patterns = b.patterns) ∧
    ((nextMatch b).1 = none → (nextMatch b).2.state.lastChanged = [] ∧
      ∀ p ∈ b.state.lastChanged, matchAt b.patterns b.state.pieces p = none) ∧
    (∀ m, (nextMatch b).1 = some m → ∃ pre suf,
      b.state.lastChanged = pre ++ m.changedPos :: suf ∧
      (∀ p ∈ pre, matchAt b.patterns b.state.pieces p = none) ∧
      matchAt b.patterns b.state.pieces m.changedPos = some m ∧
      (nextMatch b).2.state.lastChanged = suf) ∧
    (∀ p rest m, b.state.lastChanged = p :: p :: rest →
      matchAt b.patterns b.state.pieces p = some m →
      (nextMatch b).1 = some m ∧ (nextMatch (nextMatch b).2).1 = some m) := by
  refine ⟨⟨rfl, rfl, rfl⟩, ?_, ?_, ?_⟩
  · intro h
    exact nextMatchGo_none b.patterns b.state.pieces b.state.lastChanged h
  · intro m h
    exact nextMatchGo_some b.patterns b.state.pieces b.state.lastChanged m h
  · intro p rest m hq hm
    constructor
    · simp [nextMatch, hq, nextMatchGo, hm]
    · simp [nextMatch, hq, nextMatchGo, hm]

/-- C4 witness: a 1×1 board whose only cell was set twice; both queued
copies of the position yield the same match on consecutive calls. -/
theorem claimC4_fifo_queue_witness :
    (nextMatch (Board.new
        ((setPieceU ((setPieceU (BoardState.new 1 1) ⟨0, 0⟩
            (Piece.regular 'a' allDirections)).2) ⟨0, 0⟩
          (Piece.regular 'a' allDirections)).2)
        [⟨'a', [⟨0, 0⟩], 1⟩] [])).1 =
      some ⟨⟨'a', [⟨0, 0⟩], 1⟩, ⟨0, 0⟩, [⟨0, 0⟩]⟩ ∧
    (nextMatch (nextMatch (Board.new
        ((setPieceU ((setPieceU (BoardState.new 1 1) ⟨0, 0⟩
            (Piece.regular 'a' allDirections)).2) ⟨0, 0⟩
          (Piece.regular 'a' allDirections)).2)
        [⟨'a', [⟨0, 0⟩], 1⟩] [])).2).1 =
      some ⟨⟨'a', [⟨0, 0⟩], 1⟩, ⟨0, 0⟩, [⟨0, 0⟩]⟩ :=
  (claimC4_fifo_queue _).2.2.2 ⟨0, 0⟩ [] ⟨⟨'a', [⟨0, 0⟩], 1⟩, ⟨0, 0⟩, [⟨0, 0⟩]⟩
    (by rfl) (by rfl)

/-- A pattern is satisfiable at a position: its piece type has a bitboard
and some variant matches there. -/
def SatAt (pat : MatchPattern) (pieces : List (PieceType × BitBoard)) (p : Pos) : Prop :=
  ∃ bd, lookupType pieces pat.pieceType = some bd ∧
    (checkPattern bd pat.spaces p).isSome = true

/-- C3: with two registered patterns of different ranks both satisfiable
at the changed position at the head of the queue, `next_match` returns a
match for the higher-ranked pattern and never the lower-ranked one,
whichever order the two were registered in. -/
theorem claimC3_rank_precedence (s : BoardState) (rules : List SwapRule)
    (P Q : MatchPattern) (hrank : Q.rank < P.rank) (p : Pos) (rest : List Pos)
    (hq : s.lastChanged = p :: rest)
    (hP : SatAt P s.pieces p) (hQ : SatAt Q s.pieces p) :
    (∃ m, (nextMatch (Board.new s [P, Q] rules)).1 = some m ∧
      m.pattern = P ∧ m.pattern ≠ Q) ∧
    (∃ m, (nextMatch (Board.new s [Q, P] rules)).1 = some m ∧
      m.pattern = P ∧ m.pattern ≠ Q) := by
  obtain ⟨bd, hlook, hck⟩ := hP
  obtain ⟨r, hr⟩ := Option.isSome_iff_exists.1 hck
  have hPQ : P ≠ Q := by
    intro h
    rw [h] at hrank
    omega
  have hsorted1 : sortByRankDesc [P, Q] = [P, Q] := by
    simp [sortByRankDesc, insertByRankDesc, hrank]
  have hsorted2 : sortByRankDesc [Q, P] = [P, Q] := by
    have : ¬P.rank < Q.rank := by omega
    simp [sortByRankDesc, insertByRankDesc, this, hrank]
  have hfirst : matchAt [P, Q] s.pieces p = some ⟨P, p, r⟩ := by
    simp [matchAt, List.findSome?_cons, hlook, hr]
  constructor
  · refine ⟨⟨P, p, r⟩, ?_, rfl, by simp [hPQ]⟩
    simp [nextMatch, Board.new, hsorted1, hq, nextMatchGo, hfirst]
  · refine ⟨⟨P, p, r⟩, ?_, rfl, by simp [hPQ]⟩
    simp [nextMatch, Board.new, hsorted2, hq, nextMatchGo, hfirst]

/-- C3 witness: two single-cell patterns of ranks 2 and 1 over the same
piece type, both satisfiable at the one queued position of a 1×1 board;
the rank-2 pattern wins in both registration orders. -/
theorem claimC3_rank_precedence_witness :
    (∃ m, (nextMatch (Board.new
        ((setPieceU (BoardState.new 1 1) ⟨0, 0⟩ (Piece.regular 'a' allDirections)).2)
        [⟨'a', [⟨0, 0⟩], 2⟩, ⟨'a', [⟨0, 0⟩], 1⟩] [])).1 = some m ∧
      m.pattern = ⟨'a', [⟨0, 0⟩], 2⟩ ∧ m.pattern ≠ ⟨'a', [⟨0, 0⟩], 1⟩) ∧
    (∃ m, (nextMatch (Board.new
        ((setPieceU (BoardState.new 1 1) ⟨0, 0⟩ (Piece.regular 'a' allDirections)).2)
        [⟨'a', [⟨0, 0⟩], 1⟩, ⟨'a', [⟨0, 0⟩], 2⟩] [])).1 = some m ∧
      m.pattern = ⟨'a', [⟨0, 0⟩], 2⟩ ∧ m.pattern ≠ ⟨'a', [⟨0, 0⟩], 1⟩) := by
  have h := claimC3_rank_precedence
    ((setPieceU (BoardState.new 1 1) ⟨0, 0⟩ (Piece.regular 'a' allDirections)).2)
    [] ⟨'a', [⟨0, 0⟩], 2⟩ ⟨'a', [⟨0, 0⟩], 1⟩ (by decide) ⟨0, 0⟩ []
    (by rfl) ⟨_, rfl, rfl⟩ ⟨_, rfl, rfl⟩
  exact ⟨h.1, h.2⟩

/-- The per-cell mask exclusivity invariant: at most one of the empty bit
and the per-type bits is set at every cell — an empty cell carries no
type bit, and any two set type bits belong to the same type. -/
def ExclState (s : BoardState) : Prop :=
  ∀ q : Pos,
    (s.empties.isSet q = true → ∀ tb ∈ s.pieces, tb.2.isSet q = false) ∧
    (∀ tb1 ∈ s.pieces, ∀ tb2 ∈ s.pieces,
      tb1.2.isSet q = true → tb2.2.isSet q = true → tb1.1 = tb2.1)

/-- The per-type map has no duplicate keys (a `HashMap` cannot). -/
def KeysNodup (s : BoardState) : Prop :=
  (s.pieces.map Prod.fst).Nodup

/-- A successful `HashMap::get` finds an entry of the map. -/
theorem mem_of_lookupType (l : List (PieceType × BitBoard)) (t : PieceType)
    (bd : BitBoard) (h : lookupType l t = some bd) : (t, bd) ∈ l := by
  unfold lookupType at h
  obtain ⟨tb, hfind, h2⟩ := Option.map_eq_some'.1 h
  have hmem := List.mem_of_find?_eq_some hfind
  have hp : tb.1 = t := by simpa using List.find?_some hfind
  cases tb
  cases hp
  cases h2
  exact hmem

/-- `piece_type` reports no type exactly when no per-type mask has the
cell's bit set. -/
theorem pieceTypeAt_eq_none_iff (l : List (PieceType × BitBoard)) (p : Pos) :
    pieceTypeAt l p = none ↔ ∀ tb ∈ l, tb.2.isSet p = false := by
  unfold pieceTypeAt
  rw [List.findSome?_eq_none_iff]
  constructor
  · intro h tb htb
    have h2 := h tb htb
    by_cases hs : tb.2.isSet p
    · simp [hs] at h2
    · simpa using hs
  · intro h tb htb
    simp [h tb htb]

/-- A pattern can never match at a cell whose bit is clear in the
pattern's own type mask: every variant contains the cell itself. -/
theorem checkPattern_none_of_unset (bd : BitBoard) (spaces : List Pos) (p : Pos)
    (h : bd.isSet p = false) : checkPattern bd spaces p = none := by
  apply List.findSome?_eq_none_iff.2
  intro o ho
  by_cases hg : (o.x > p.x || o.y > p.y) = true
  · simp [checkPattern, hg]
  · have hx : o.x ≤ p.x ∧ o.y ≤ p.y := by
      simp only [Bool.or_eq_true, decide_eq_true_eq] at hg
      omega
    simp only [hg, if_false]
    unfold checkVariant
    have hmem : p ∈ changeOrigin spaces (p.sub o) := by
      refine List.mem_map.2 ⟨o, ho, ?_⟩
      show o.add (p.sub o) = p
      cases p
      cases o
      simp only [Pos.add, Pos.sub, Pos.mk.injEq]
      simp only [Pos.mk.injEq] at *
      omega
    have hally : (changeOrigin spaces (p.sub o)).all (fun pos => bd.isSet pos) = false := by
      by_cases hba : (changeOrigin spaces (p.sub o)).all (fun pos => bd.isSet pos) = true
      · have := List.all_eq_true.1 hba p hmem
        rw [h] at this
        cases this
      · exact Bool.eq_false_iff.2 hba
    simp [hally]

/-- C7: a queued position holding an Empty piece or a Wall (under the mask
exclusivity invariant) matches no registered pattern of any type, and
`next_match` proceeds exactly as if the queue had started at the next
position. -/
theorem claimC7_empty_wall_no_match (b : Board) (p : Pos) (rest : List Pos)
    (hq : b.state.lastChanged = p :: rest) (hex : ExclState b.state)
    (hpw : pieceU b.state p = Piece.empty ∨ pieceU b.state p = Piece.wall) :
    matchAt b.patterns b.state.pieces p = none ∧
    nextMatch b = nextMatch { b with state := { b.state with lastChanged := rest } } := by
  have hall : ∀ tb ∈ b.state.pieces, tb.2.isSet p = false := by
    rcases hpw with hp1 | hp1
    · have he : b.state.empties.isSet p = true := by
        by_cases he : b.state.empties.isSet p
        · exact he
        · exfalso
          unfold pieceU at hp1
          cases hpt : pieceTypeAt b.state.pieces p <;> simp [he, hpt] at hp1
      exact (hex p).1 he
    · have hw : pieceTypeAt b.state.pieces p = none := by
        by_cases he : b.state.empties.isSet p
        · unfold pieceU at hp1
          simp [he] at hp1
        · unfold pieceU at hp1
          cases hpt : pieceTypeAt b.state.pieces p with
          | none => rfl
          | some t => simp [he, hpt] at hp1
      exact fun tb htb => (pieceTypeAt_eq_none_iff _ _).1 hw tb htb
  have hmnone : matchAt b.patterns b.state.pieces p = none := by
    apply List.findSome?_eq_none_iff.2
    intro pat _
    cases hl : lookupType b.state.pieces pat.pieceType with
    | none => simp [hl]
    | some bd =>
      have hmem := mem_of_lookupType _ _ _ hl
      have hset := hall _ hmem
      simp [hl, checkPattern_none_of_unset bd pat.spaces p hset]
  refine ⟨hmnone, ?_⟩
  simp [nextMatch, hq, nextMatchGo, hmnone]

/-- C7 witness: on a 1×1 board whose only cell was set to Empty (and is
queued), the registered pattern does not match and `next_match` behaves
as on the dequeued board. -/
theorem claimC7_empty_wall_no_match_witness :
    matchAt (Board.new ((setPieceU (BoardState.new 1 1) ⟨0, 0⟩ Piece.empty).2)
        [⟨'a', [⟨0, 0⟩], 1⟩] []).patterns
      (Board.new ((setPieceU (BoardState.new 1 1) ⟨0, 0⟩ Piece.empty).2)
        [⟨'a', [⟨0, 0⟩], 1⟩] []).state.pieces ⟨0, 0⟩ = none := by
  have hex : ExclState ((setPieceU (BoardState.new 1 1) ⟨0, 0⟩ Piece.empty).2) := by
    intro q
    constructor
    · intro _ tb htb
      rw [show ((setPieceU (BoardState.new 1 1) ⟨0, 0⟩ Piece.empty).2).pieces = []
        from rfl] at htb
      simp at htb
    · intro tb1 h1 tb2 h2 _ _
      rw [show ((setPieceU (BoardState.new 1 1) ⟨0, 0⟩ Piece.empty).2).pieces = []
        from rfl] at h1
      simp at h1
  exact (claimC7_empty_wall_no_match
    (Board.new ((setPieceU (BoardState.new 1 1) ⟨0, 0⟩ Piece.empty).2)
      [⟨'a', [⟨0, 0⟩], 1⟩] []) ⟨0, 0⟩ [] rfl hex (Or.inl rfl)).1

/-- With nodup keys, an association list binds each key to one board. -/
theorem nodup_unique_key {l : List (PieceType × BitBoard)}
    (hnod : (l.map Prod.fst).Nodup) {t : PieceType} {b1 b2 : BitBoard}
    (h1 : (t, b1) ∈ l) (h2 : (t, b2) ∈ l) : b1 = b2 := by
  induction l with
  | nil => cases h1
  | cons hd tl ih =>
    rw [List.map_cons, List.nodup_cons] at hnod
    rcases List.mem_cons.1 h1 with e1 | e1 <;> rcases List.mem_cons.1 h2 with e2 | e2
    · rw [← e1] at e2
      exact ((Prod.ext_iff.1 e2).2).symm
    · exfalso
      apply hnod.1
      rw [← e1]
      exact List.mem_map.2 ⟨(t, b2), e2, rfl⟩
    · exfalso
      apply hnod.1
      rw [← e2]
      exact List.mem_map.2 ⟨(t, b1), e1, rfl⟩
    · exact ih hnod.2 e1 e2

/-- `and_modify` on an absent key is the identity. -/
theorem modifyEntry_eq_of_not_mem {l : List (PieceType × BitBoard)} {t : PieceType}
    (f : BitBoard → BitBoard) (h : t ∉ l.map Prod.fst) : modifyEntry t f l = l := by
  induction l with
  | nil => rfl
  | cons hd tl ih =>
    rw [List.map_cons, List.mem_cons] at h
    push_neg at h
    rw [modifyEntry, if_neg (fun hh => h.1 hh.symm), ih h.2]

/-- `and_modify` keeps the key list unchanged. -/
theorem keys_modifyEntry (t : PieceType) (f : BitBoard → BitBoard)
    (l : List (PieceType × BitBoard)) :
    (modifyEntry t f l).map Prod.fst = l.map Prod.fst := by
  induction l with
  | nil => rfl
  | cons hd tl ih =>
    by_cases hh : hd.1 = t
    · simp [modifyEntry, hh]
    · simp [modifyEntry, hh, ih]

/-- Membership in `and_modify`'s result, for a key present in a
nodup-keyed list: entries either kept (with a different key) or the one
modified binding. -/
theorem mem_modifyEntry_iff {l : List (PieceType × BitBoard)} {t : PieceType}
    {b0 : BitBoard} (f : BitBoard → BitBoard)
    (hnod : (l.map Prod.fst).Nodup) (hmem : (t, b0) ∈ l)
    (tb : PieceType × BitBoard) :
    tb ∈ modifyEntry t f l ↔ ((tb ∈ l ∧ tb.1 ≠ t) ∨ tb = (t, f b0)) := by
  induction l with
  | nil => cases hmem
  | cons hd tl ih =>
    rw [List.map_cons, List.nodup_cons] at hnod
    by_cases hh : hd.1 = t
    · have hhd : hd = (t, b0) := by
        rcases List.mem_cons.1 hmem with e | e
        · exact e.symm
        · exfalso
          apply hnod.1
          rw [hh]
          exact List.mem_map.2 ⟨(t, b0), e, rfl⟩
      subst hhd
      rw [modifyEntry, if_pos hh]
      constructor
      · intro hin
        rcases List.mem_cons.1 hin with e | e
        · right
          simpa using e
        · left
          refine ⟨List.mem_cons.2 (Or.inr e), ?_⟩
          intro hk
          apply hnod.1
          rw [← hk]
          exact List.mem_map.2 ⟨tb, e, rfl⟩
      · intro hin
        rcases hin with ⟨hin, hk⟩ | e
        · rcases List.mem_cons.1 hin with e | e
          · exact absurd (congrArg Prod.fst e) (by simpa using hk)
          · exact List.mem_cons.2 (Or.inr e)
        · exact List.mem_cons.2 (Or.inl (by simpa using e))
    · have hmem2 : (t, b0) ∈ tl := by
        rcases List.mem_cons.1 hmem with e | e
        · exact absurd (congrArg Prod.fst e.symm) hh
        · exact e
      rw [modifyEntry, if_neg hh]
      rw [List.mem_cons, List.mem_cons, ih hnod.2 hmem2]
      constructor
      · intro hin
        rcases hin with e | ⟨hin, hk⟩ | e
        · subst e
          exact Or.inl ⟨Or.inl rfl, hh⟩
        · exact Or.inl ⟨Or.inr hin, hk⟩
        · exact Or.inr e
      · intro hin
        rcases hin with ⟨e | hin, hk⟩ | e
        · exact Or.inl e
        · exact Or.inr (Or.inl ⟨hin, hk⟩)
        · exact Or.inr (Or.inr e)

/-- A reported piece type comes with a set bit in that type's board. -/
theorem pieceTypeAt_some_mem {l : List (PieceType × BitBoard)} {q : Pos}
    {t : PieceType} (h : pieceTypeAt l q = some t) :
    ∃ b, (t, b) ∈ l ∧ b.isSet q = true := by
  obtain ⟨tb, htb, hf⟩ := List.exists_of_findSome?_eq_some h
  by_cases hs : tb.2.isSet q
  · rw [if_pos hs] at hf
    cases hf
    exact ⟨tb.2, htb, hs⟩
  · rw [if_neg hs] at hf
    cases hf

/-- Under pairwise key exclusivity at a cell, any entry with the cell's
bit set names the type `piece_type` reports. -/
theorem pieceTypeAt_of_mem {l : List (PieceType × BitBoard)} {q : Pos}
    (hpair : ∀ tb1 ∈ l, ∀ tb2 ∈ l,
      tb1.2.isSet q = true → tb2.2.isSet q = true → tb1.1 = tb2.1)
    {t : PieceType} {b : BitBoard} (hmem : (t, b) ∈ l) (hset : b.isSet q = true) :
    pieceTypeAt l q = some t := by
  induction l with
  | nil => cases hmem
  | cons hd tl ih =>
    by_cases hs : hd.2.isSet q
    · have hk : hd.1 = t :=
        hpair hd (List.mem_cons_self hd tl) (t, b) hmem hs hset
      rw [pieceTypeAt, List.findSome?_cons, if_pos hs, hk]
    · have hmem2 : (t, b) ∈ tl := by
        rcases List.mem_cons.1 hmem with e | e
        · exfalso
          apply hs
          rw [← e]
          exact hset
        · exact e
      rw [pieceTypeAt, List.findSome?_cons, if_neg hs]
      exact ih (fun tb1 h1 tb2 h2 => hpair tb1 (List.mem_cons.2 (Or.inr h1))
        tb2 (List.mem_cons.2 (Or.inr h2))) hmem2

/-- The per-cell exclusivity clauses transfer along a key-preserving,
bit-nonincreasing embedding of entries, if the empty bit is carried over
from a cell satisfying the source clauses. -/
theorem excl_transfer {l2 l : List (PieceType × BitBoard)} {q q0 : Pos}
    {e2 e : BitBoard}
    (hemb : ∀ tb ∈ l2, tb.2.isSet q = true → ∃ b', (tb.1, b') ∈ l ∧ b'.isSet q0 = true)
    (hemp : e2.isSet q = e.isSet q0)
    (hclause : (e.isSet q0 = true → ∀ tb ∈ l, tb.2.isSet q0 = false) ∧
      (∀ tb1 ∈ l, ∀ tb2 ∈ l,
        tb1.2.isSet q0 = true → tb2.2.isSet q0 = true → tb1.1 = tb2.1)) :
    (e2.isSet q = true → ∀ tb ∈ l2, tb.2.isSet q = false) ∧
    (∀ tb1 ∈ l2, ∀ tb2 ∈ l2,
      tb1.2.isSet q = true → tb2.2.isSet q = true → tb1.1 = tb2.1) := by
  constructor
  · intro he tb htb
    by_cases hs : tb.2.isSet q
    · obtain ⟨b', hb', hset⟩ := hemb tb htb hs
      rw [hemp] at he
      have := hclause.1 he (tb.1, b') hb'
      rw [hset] at this
      cases this
    · simpa using hs
  · intro tb1 h1 tb2 h2 hs1 hs2
    obtain ⟨b1', hb1', hset1⟩ := hemb tb1 h1 hs1
    obtain ⟨b2', hb2', hset2⟩ := hemb tb2 h2 hs2
    exact hclause.2 (tb1.1, b1') hb1' (tb2.1, b2') hb2' hset1 hset2

/-- Bit query after `set`. -/
theorem isSet_set (b : BitBoard) (p q : Pos) :
    (b.set p).isSet q = if q = p then true else b.isSet q :=
  rfl

/-- Bit query after `unset`. -/
theorem isSet_unset (b : BitBoard) (p q : Pos) :
    (b.unset p).isSet q = if q = p then false else b.isSet q :=
  rfl

/-- Bit query after `swap`. -/
theorem isSet_swap (b : BitBoard) (p q r : Pos) :
    (b.swap p q).isSet r =
      if r = p then b.isSet q else if r = q then b.isSet p else b.isSet r :=
  rfl

/-- Clearing a cell's type bit keeps the key list unchanged. -/
theorem keys_clearTypeBit (l : List (PieceType × BitBoard)) (pos : Pos) :
    (clearTypeBit l pos).map Prod.fst = l.map Prod.fst := by
  unfold clearTypeBit
  cases pieceTypeAt l pos with
  | none => rfl
  | some t => exact keys_modifyEntry t _ l

/-- After the clearing step no per-type mask holds the cell's bit. -/
theorem clearTypeBit_cleared {l : List (PieceType × BitBoard)} {pos : Pos}
    (hnod : (l.map Prod.fst).Nodup)
    (hpair : ∀ tb1 ∈ l, ∀ tb2 ∈ l,
      tb1.2.isSet pos = true → tb2.2.isSet pos = true → tb1.1 = tb2.1) :
    ∀ tb ∈ clearTypeBit l pos, tb.2.isSet pos = false := by
  unfold clearTypeBit
  cases hpt : pieceTypeAt l pos with
  | none => exact (pieceTypeAt_eq_none_iff l pos).1 hpt
  | some t0 =>
    obtain ⟨b0, hb0, hset0⟩ := pieceTypeAt_some_mem hpt
    intro tb htb
    rw [mem_modifyEntry_iff _ hnod hb0] at htb
    rcases htb with ⟨hin, hk⟩ | e
    · by_cases hs : tb.2.isSet pos
      · exact absurd (hpair tb hin (t0, b0) hb0 hs hset0) hk
      · simpa using hs
    · rw [e]
      show (b0.unset pos).isSet pos = false
      simp [isSet_unset]

/-- Every set bit surviving the clearing step was already set on the same
type's board. -/
theorem clearTypeBit_embed {l : List (PieceType × BitBoard)} {pos : Pos}
    (hnod : (l.map Prod.fst).Nodup) :
    ∀ q : Pos, ∀ tb ∈ clearTypeBit l pos, tb.2.isSet q = true →
      ∃ b', (tb.1, b') ∈ l ∧ b'.isSet q = true := by
  unfold clearTypeBit
  cases hpt : pieceTypeAt l pos with
  | none => exact fun q tb htb hs => ⟨tb.2, htb, hs⟩
  | some t0 =>
    obtain ⟨b0, hb0, _⟩ := pieceTypeAt_some_mem hpt
    intro q tb htb hs
    rw [mem_modifyEntry_iff _ hnod hb0] at htb
    rcases htb with ⟨hin, _⟩ | e
    · exact ⟨tb.2, hin, hs⟩
    · rw [e] at hs ⊢
      rw [isSet_unset] at hs
      by_cases hq : q = pos
      · rw [if_pos hq] at hs
        cases hs
      · rw [if_neg hq] at hs
        exact ⟨b0, hb0, hs⟩

/-- Keys after `and_modify(..).or_insert_with(..)`. -/
theorem keys_modifyOrInsert (t : PieceType) (f : BitBoard → BitBoard)
    (dflt : BitBoard) (l : List (PieceType × BitBoard)) :
    (modifyOrInsert t f dflt l).map Prod.fst =
      if (l.find? (fun tb => tb.1 = t)).isSome then l.map Prod.fst
      else l.map Prod.fst ++ [t] := by
  unfold modifyOrInsert
  by_cases h : (l.find? (fun tb => tb.1 = t)).isSome
  · rw [if_pos h, if_pos h, keys_modifyEntry]
  · rw [if_neg h, if_neg h, List.map_append]
    rfl

/-- `and_modify(..).or_insert_with(..)` preserves nodup keys. -/
theorem nodup_modifyOrInsert {l : List (PieceType × BitBoard)} {t : PieceType}
    (f : BitBoard → BitBoard) (dflt : BitBoard)
    (hnod : (l.map Prod.fst).Nodup) :
    ((modifyOrInsert t f dflt l).map Prod.fst).Nodup := by
  rw [keys_modifyOrInsert]
  by_cases h : (l.find? (fun tb => tb.1 = t)).isSome
  · rwa [if_pos h]
  · rw [if_neg h]
    have habs : t ∉ l.map Prod.fst := by
      intro hmem
      obtain ⟨tb, htb, hk⟩ := List.mem_map.1 hmem
      have : l.find? (fun tb => tb.1 = t) ≠ none := by
        intro hnone
        have := List.find?_eq_none.1 hnone tb htb
        simp [hk] at this
      rcases ho : l.find? (fun tb => tb.1 = t) with _ | v
      · exact this ho
      · exact h (by rw [ho]; rfl)
    simp [List.nodup_append, hnod, habs]

/-- After inserting-or-setting the new type's bit, any entry holding the
cell's bit is that type's entry (provided the cell was cleared first). -/
theorem modifyOrInsert_set_at_pos {l : List (PieceType × BitBoard)} {t : PieceType}
    {pos : Pos} (hnod : (l.map Prod.fst).Nodup)
    (hcl : ∀ tb ∈ l, tb.2.isSet pos = false) :
    ∀ tb ∈ modifyOrInsert t (fun b => b.set pos) (BitBoard.new.set pos) l,
      tb.2.isSet pos = true → tb.1 = t := by
  intro tb htb _
  unfold modifyOrInsert at htb
  by_cases h : (l.find? (fun tb => tb.1 = t)).isSome
  · rw [if_pos h] at htb
    obtain ⟨tb0, hfind⟩ := Option.isSome_iff_exists.1 h
    have htb0mem := List.mem_of_find?_eq_some hfind
    have htb0key : tb0.1 = t := by simpa using List.find?_some hfind
    have hmem : (t, tb0.2) ∈ l := by
      rw [← htb0key]
      exact htb0mem
    rw [mem_modifyEntry_iff _ hnod hmem] at htb
    rcases htb with ⟨hin, hk⟩ | e
    · rename_i hs
      rw [hcl tb hin] at hs
      cases hs
    · rw [e]
  · rw [if_neg h] at htb
    rcases List.mem_append.1 htb with hin | hin
    · rename_i hs
      rw [hcl tb hin] at hs
      cases hs
    · rw [List.mem_singleton.1 hin]

/-- Away from the written cell, inserting-or-setting embeds set bits back
into the original list. -/
theorem modifyOrInsert_set_embed {l : List (PieceType × BitBoard)} {t : PieceType}
    {pos : Pos} (hnod : (l.map Prod.fst).Nodup) :
    ∀ q : Pos, q ≠ pos →
      ∀ tb ∈ modifyOrInsert t (fun b => b.set pos) (BitBoard.new.set pos) l,
        tb.2.isSet q = true → ∃ b', (tb.1, b') ∈ l ∧ b'.isSet q = true := by
  intro q hq tb htb hs
  unfold modifyOrInsert at htb
  by_cases h : (l.find? (fun tb => tb.1 = t)).isSome
  · rw [if_pos h] at htb
    obtain ⟨tb0, hfind⟩ := Option.isSome_iff_exists.1 h
    have htb0mem := List.mem_of_find?_eq_some hfind
    have htb0key : tb0.1 = t := by simpa using List.find?_some hfind
    have hmem : (t, tb0.2) ∈ l := by
      rw [← htb0key]
      exact htb0mem
    rw [mem_modifyEntry_iff _ hnod hmem] at htb
    rcases htb with ⟨hin, _⟩ | e
    · exact ⟨tb.2, hin, hs⟩
    · rw [e] at hs ⊢
      rw [isSet_set, if_neg hq] at hs
      exact ⟨tb0.2, hmem, hs⟩
  · rw [if_neg h] at htb
    rcases List.mem_append.1 htb with hin | hin
    · exact ⟨tb.2, hin, hs⟩
    · rw [List.mem_singleton.1 hin] at hs
      rw [isSet_set, if_neg hq] at hs
      show ∃ b', _ ∧ b'.isSet q = true
      rw [show (BitBoard.new.isSet q) = false from rfl] at hs
      cases hs

/-- The whole board-state invariant: nodup type keys and per-cell mask
exclusivity. -/
def InvState (s : BoardState) : Prop :=
  KeysNodup s ∧ ExclState s

/-- The per-type masks `set_piece` leaves behind, by piece case. -/
theorem setPieceU_pieces (s : BoardState) (pos : Pos) (pc : Piece) :
    (setPieceU s pos pc).2.pieces =
      match pc with
      | .regular t _ => modifyOrInsert t (fun b => b.set pos) (BitBoard.new.set pos)
          (clearTypeBit s.pieces pos)
      | _ => clearTypeBit s.pieces pos := by
  cases pc <;> rfl

/-- The empty mask `set_piece` leaves behind, by piece case. -/
theorem setPieceU_empties (s : BoardState) (pos : Pos) (pc : Piece) :
    (setPieceU s pos pc).2.empties =
      match pc with
      | .empty => s.empties.set pos
      | _ => s.empties.unset pos := by
  cases pc <;> rfl

/-- `set_piece` preserves the board-state invariant. -/
theorem inv_setPieceU (s : BoardState) (pos : Pos) (pc : Piece)
    (hinv : InvState s) : InvState (setPieceU s pos pc).2 := by
  obtain ⟨hnod, hex⟩ := hinv
  have hnod1 : ((clearTypeBit s.pieces pos).map Prod.fst).Nodup := by
    rw [keys_clearTypeBit]
    exact hnod
  have hcl : ∀ tb ∈ clearTypeBit s.pieces pos, tb.2.isSet pos = false :=
    clearTypeBit_cleared hnod (hex pos).2
  have hemb : ∀ q : Pos, ∀ tb ∈ clearTypeBit s.pieces pos, tb.2.isSet q = true →
      ∃ b', (tb.1, b') ∈ s.pieces ∧ b'.isSet q = true := clearTypeBit_embed hnod
  cases pc with
  | regular t dirs =>
    constructor
    · unfold KeysNodup
      rw [setPieceU_pieces]
      exact nodup_modifyOrInsert _ _ hnod1
    · intro q
      rw [ExclState] at hex
      rw [setPieceU_pieces, setPieceU_empties]
      by_cases hq : q = pos
      · subst hq
        constructor
        · intro habs
          rw [isSet_unset, if_pos rfl] at habs
          cases habs
        · intro tb1 h1 tb2 h2 hs1 hs2
          rw [modifyOrInsert_set_at_pos hnod1 hcl tb1 h1 hs1,
            modifyOrInsert_set_at_pos hnod1 hcl tb2 h2 hs2]
      · have hembq : ∀ tb ∈ modifyOrInsert t (fun b => b.set pos) (BitBoard.new.set pos)
            (clearTypeBit s.pieces pos), tb.2.isSet q = true →
              ∃ b', (tb.1, b') ∈ s.pieces ∧ b'.isSet q = true := by
          intro tb htb hs
          obtain ⟨b1, hb1, hs1⟩ := modifyOrInsert_set_embed hnod1 q hq tb htb hs
          exact hemb q (tb.1, b1) hb1 hs1
        exact excl_transfer hembq (by rw [isSet_unset, if_neg hq]) (hex q)
  | empty =>
    constructor
    · unfold KeysNodup
      rw [setPieceU_pieces]
      exact hnod1
    · intro q
      rw [setPieceU_pieces, setPieceU_empties]
      by_cases hq : q = pos
      · subst hq
        constructor
        · intro _ tb htb
          exact hcl tb htb
        · intro tb1 h1 tb2 h2 hs1 hs2
          rw [hcl tb1 h1] at hs1
          cases hs1
      · exact excl_transfer (hemb q) (by rw [isSet_set, if_neg hq]) (hex q)
  | wall =>
    constructor
    · unfold KeysNodup
      rw [setPieceU_pieces]
      exact hnod1
    · intro q
      rw [setPieceU_pieces, setPieceU_empties]
      by_cases hq : q = pos
      · subst hq
        constructor
        · intro habs
          rw [isSet_unset, if_pos rfl] at habs
          cases habs
        · intro tb1 h1 tb2 h2 hs1 hs2
          rw [hcl tb1 h1] at hs1
          cases hs1
      · exact excl_transfer (hemb q) (by rw [isSet_unset, if_neg hq]) (hex q)

/-- A self-swap is a no-op. -/
theorem swapAlways_self (s : BoardState) (p : Pos) : swapAlways s p p = s := by
  simp [swapAlways]

/-- The empty mask after a proper `swap_always`. -/
theorem swapAlways_empties (s : BoardState) (f sec : Pos) (hne : f ≠ sec) :
    (swapAlways s f sec).empties = s.empties.swap f sec := by
  by_cases ht : pieceTypeAt s.pieces f = pieceTypeAt s.pieces sec <;>
    simp [swapAlways, hne, ht]

/-- The movability masks after a proper `swap_always`. -/
theorem swapAlways_movable (s : BoardState) (f sec : Pos) (hne : f ≠ sec) :
    (swapAlways s f sec).movableDirections =
      fun d => (s.movableDirections d).swap f sec := by
  by_cases ht : pieceTypeAt s.pieces f = pieceTypeAt s.pieces sec <;>
    simp [swapAlways, hne, ht]

/-- The change queue after a proper `swap_always`. -/
theorem swapAlways_lastChanged (s : BoardState) (f sec : Pos) (hne : f ≠ sec) :
    (swapAlways s f sec).lastChanged = s.lastChanged ++ [f, sec] := by
  by_cases ht : pieceTypeAt s.pieces f = pieceTypeAt s.pieces sec <;>
    simp [swapAlways, hne, ht]

/-- `swap_always` never changes the board dimensions. -/
theorem swapAlways_dims (s : BoardState) (f sec : Pos) :
    (swapAlways s f sec).width = s.width ∧ (swapAlways s f sec).height = s.height := by
  by_cases hne : f = sec
  · rw [hne, swapAlways_self]
    exact ⟨rfl, rfl⟩
  · by_cases ht : pieceTypeAt s.pieces f = pieceTypeAt s.pieces sec <;>
      simp [swapAlways, hne, ht]

/-- The per-type masks after a proper `swap_always`. -/
theorem swapAlways_pieces (s : BoardState) (f sec : Pos) (hne : f ≠ sec) :
    (swapAlways s f sec).pieces =
      if pieceTypeAt s.pieces f = pieceTypeAt s.pieces sec then s.pieces
      else swapTypeEntry (pieceTypeAt s.pieces sec) f sec
        (swapTypeEntry (pieceTypeAt s.pieces f) f sec s.pieces) := by
  by_cases ht : pieceTypeAt s.pieces f = pieceTypeAt s.pieces sec <;>
    simp [swapAlways, hne, ht]

/-- The cell a bit query lands on after swapping two cells. -/
def swapPos (f sec q : Pos) : Pos :=
  if q = f then sec else if q = sec then f else q

/-- Querying a swapped bitboard reads the swapped cell. -/
theorem isSet_swap_swapPos (b : BitBoard) (f sec q : Pos) :
    (b.swap f sec).isSet q = b.isSet (swapPos f sec q) := by
  unfold swapPos
  rw [isSet_swap]
  by_cases hqf : q = f
  · simp [hqf]
  · by_cases hqs : q = sec
    · have hsf : ¬sec = f := fun h => hqf (hqs.trans h)
      simp [hqf, hqs, hsf]
    · simp [hqf, hqs]

/-- Keys are unchanged by the type-mask swap step. -/
theorem keys_swapTypeEntry (ot : Option PieceType) (f sec : Pos)
    (l : List (PieceType × BitBoard)) :
    (swapTypeEntry ot f sec l).map Prod.fst = l.map Prod.fst := by
  cases ot with
  | none => rfl
  | some a => exact keys_modifyEntry a _ l

/-- Membership after the type-mask swap step: entries are kept (with a
key other than the swapped one) or are the swapped binding. -/
theorem mem_swapTypeEntry {l : List (PieceType × BitBoard)} {ot : Option PieceType}
    {f sec : Pos} (hnod : (l.map Prod.fst).Nodup)
    (hpres : ∀ a, ot = some a → ∃ b, (a, b) ∈ l) :
    ∀ tb ∈ swapTypeEntry ot f sec l,
      (tb ∈ l ∧ ∀ a, ot = some a → tb.1 ≠ a) ∨
      (∃ a b0, ot = some a ∧ (a, b0) ∈ l ∧ tb = (a, b0.swap f sec)) := by
  intro tb htb
  cases ot with
  | none => exact Or.inl ⟨htb, fun a ha => nomatch ha⟩
  | some a =>
    obtain ⟨b0, hb0⟩ := hpres a rfl
    rw [show swapTypeEntry (some a) f sec l =
      modifyEntry a (fun b => b.swap f sec) l from rfl] at htb
    rw [mem_modifyEntry_iff _ hnod hb0] at htb
    rcases htb with ⟨hin, hk⟩ | e
    · refine Or.inl ⟨hin, fun a2 ha2 => ?_⟩
      cases ha2
      exact hk
    · exact Or.inr ⟨a, b0, rfl, hb0, e⟩

/-- Set bits after `swap_always` embed back into the original masks at
the swapped cell, type for type. -/
theorem swapAlways_embed (s : BoardState) (f sec : Pos) (hne : f ≠ sec)
    (hnod : KeysNodup s) (hex : ExclState s) :
    ∀ q : Pos, ∀ tb ∈ (swapAlways s f sec).pieces, tb.2.isSet q = true →
      ∃ b', (tb.1, b') ∈ s.pieces ∧ b'.isSet (swapPos f sec q) = true := by
  intro q tb htb hs
  rw [swapAlways_pieces s f sec hne] at htb
  by_cases ht : pieceTypeAt s.pieces f = pieceTypeAt s.pieces sec
  · rw [if_pos ht] at htb
    unfold swapPos
    by_cases hqf : q = f
    · subst hqf
      rw [if_pos rfl]
      have h1 : pieceTypeAt s.pieces q = some tb.1 :=
        pieceTypeAt_of_mem (hex q).2 (show (tb.1, tb.2) ∈ s.pieces from htb) hs
      rw [ht] at h1
      obtain ⟨b', hb', hsb⟩ := pieceTypeAt_some_mem h1
      exact ⟨b', hb', hsb⟩
    · by_cases hqs : q = sec
      · subst hqs
        rw [if_neg hqf, if_pos rfl]
        have h1 : pieceTypeAt s.pieces q = some tb.1 :=
          pieceTypeAt_of_mem (hex q).2 (show (tb.1, tb.2) ∈ s.pieces from htb) hs
        rw [← ht] at h1
        obtain ⟨b', hb', hsb⟩ := pieceTypeAt_some_mem h1
        exact ⟨b', hb', hsb⟩
      · rw [if_neg hqf, if_neg hqs]
        exact ⟨tb.2, htb, hs⟩
  · rw [if_neg ht] at htb
    have hnod1 : ((swapTypeEntry (pieceTypeAt s.pieces f) f sec s.pieces).map
        Prod.fst).Nodup := by
      rw [keys_swapTypeEntry]
      exact hnod
    have hpres1 : ∀ a, pieceTypeAt s.pieces f = some a → ∃ b, (a, b) ∈ s.pieces :=
      fun a ha => (pieceTypeAt_some_mem ha).imp (fun b hb => hb.1)
    have hpres2 : ∀ a, pieceTypeAt s.pieces sec = some a →
        ∃ b, (a, b) ∈ swapTypeEntry (pieceTypeAt s.pieces f) f sec s.pieces := by
      intro a ha
      obtain ⟨b, hb, _⟩ := pieceTypeAt_some_mem ha
      cases hptf : pieceTypeAt s.pieces f with
      | none => exact ⟨b, hb⟩
      | some c =>
        have hac : a ≠ c := by
          intro he
          rw [hptf, ha, he] at ht
          exact ht rfl
        obtain ⟨bc, hbc, _⟩ := pieceTypeAt_some_mem hptf
        refine ⟨b, ?_⟩
        rw [show swapTypeEntry (some c) f sec s.pieces =
          modifyEntry c (fun bb => bb.swap f sec) s.pieces from rfl]
        rw [mem_modifyEntry_iff _ hnod hbc]
        exact Or.inl ⟨hb, hac⟩
    rcases mem_swapTypeEntry hnod1 hpres2 tb htb with ⟨hin1, hk2⟩ | ⟨a2, b2, ha2, hb2, e2⟩
    · rcases mem_swapTypeEntry hnod hpres1 tb hin1 with ⟨hin0, hk1⟩ | ⟨a1, b1, ha1, hb1, e1⟩
      · unfold swapPos
        by_cases hqf : q = f
        · subst hqf
          have h1 : pieceTypeAt s.pieces q = some tb.1 :=
            pieceTypeAt_of_mem (hex q).2 (show (tb.1, tb.2) ∈ s.pieces from hin0) hs
          exact absurd rfl (hk1 tb.1 h1)
        · by_cases hqs : q = sec
          · subst hqs
            have h1 : pieceTypeAt s.pieces q = some tb.1 :=
              pieceTypeAt_of_mem (hex q).2 (show (tb.1, tb.2) ∈ s.pieces from hin0) hs
            exact absurd rfl (hk2 tb.1 h1)
          · rw [if_neg hqf, if_neg hqs]
            exact ⟨tb.2, hin0, hs⟩
      · rw [e1] at hs
        rw [show ((a1, b1.swap f sec) : PieceType × BitBoard).2 = b1.swap f sec
          from rfl, isSet_swap_swapPos] at hs
        rw [e1]
        exact ⟨b1, hb1, hs⟩
    · have hb2src : (a2, b2) ∈ s.pieces := by
        rcases mem_swapTypeEntry hnod hpres1 (a2, b2) hb2 with ⟨hin0, _⟩ | ⟨a1, b1, ha1, _, e1⟩
        · exact hin0
        · exfalso
          have : a2 = a1 := congrArg Prod.fst e1
          rw [ha1, ha2, this] at ht
          exact ht rfl
      rw [e2] at hs
      rw [show ((a2, b2.swap f sec) : PieceType × BitBoard).2 = b2.swap f sec
        from rfl, isSet_swap_swapPos] at hs
      rw [e2]
      exact ⟨b2, hb2src, hs⟩

/-- `swap_always` preserves the board-state invariant. -/
theorem inv_swapAlways (s : BoardState) (f sec : Pos) (hinv : InvState s) :
    InvState (swapAlways s f sec) := by
  by_cases hne : f = sec
  · rw [hne, swapAlways_self]
    exact hinv
  obtain ⟨hnod, hex⟩ := hinv
  constructor
  · unfold KeysNodup
    rw [swapAlways_pieces s f sec hne]
    by_cases ht : pieceTypeAt s.pieces f = pieceTypeAt s.pieces sec
    · rw [if_pos ht]
      exact hnod
    · rw [if_neg ht, keys_swapTypeEntry, keys_swapTypeEntry]
      exact hnod
  · intro q
    have hemb := swapAlways_embed s f sec hne hnod hex q
    have hemp : (swapAlways s f sec).empties.isSet q =
        s.empties.isSet (swapPos f sec q) := by
      rw [swapAlways_empties s f sec hne, isSet_swap_swapPos]
    exact excl_transfer hemb hemp (hex (swapPos f sec q))

/-- `trickle_piece_down` preserves the board-state invariant. -/
theorem inv_tricklePieceDown (s : BoardState) (p : Pos) (h : InvState s) :
    InvState (tricklePieceDown s p).2 := by
  unfold tricklePieceDown
  split
  · exact h
  · exact inv_swapAlways _ _ _ h

/-- `trickle_piece_to_side` preserves the board-state invariant. -/
theorem inv_tricklePieceToSide (s : BoardState) (p : Pos) (toWest checkAdj : Bool)
    (h : InvState s) : InvState (tricklePieceToSide s p toWest checkAdj).2 := by
  cases toWest <;>
    (unfold tricklePieceToSide
     dsimp only
     split
     · exact h
     · split
       · exact h
       · exact inv_swapAlways _ _ _ h)

/-- `trickle_piece_diagonally` preserves the board-state invariant. -/
theorem inv_tricklePieceDiagonally (s : BoardState) (p : Pos) (checkAdj : Bool)
    (h : InvState s) : InvState (tricklePieceDiagonally s p checkAdj).2 := by
  unfold tricklePieceDiagonally
  dsimp only
  split
  · exact inv_tricklePieceToSide _ _ _ _ (inv_tricklePieceToSide _ _ _ _ h)
  · exact inv_tricklePieceToSide _ _ _ _ h

/-- The cascade loop of `trickle_piece` preserves the board-state
invariant. -/
theorem inv_trickleLoop (s : BoardState) (pos : Pos) (adj : Bool)
    (hinv : InvState s) : InvState (trickleLoop s pos adj).2.2 := by
  have main : ∀ y : Nat, ∀ (s : BoardState) (pos : Pos) (adj : Bool), pos.y = y →
      InvState s → InvState (trickleLoop s pos adj).2.2 := by
    intro y
    induction y using Nat.strong_induction_on with
    | _ y ih =>
      intro s pos adj hy hinv
      rw [trickleLoop]
      split
      · exact inv_tricklePieceDiagonally _ _ _ (inv_tricklePieceDown _ _ hinv)
      · rename_i hne
        have hd := tricklePieceDown_fst s pos
        rcases tricklePieceDiagonally_fst (tricklePieceDown s pos).2
          (tricklePieceDown s pos).1 adj with h1 | h1
        · exact absurd h1 hne
        · exact ih _ (by omega) _ _ adj rfl
            (inv_tricklePieceDiagonally _ _ _ (inv_tricklePieceDown _ _ hinv))
  exact main pos.y s pos adj rfl hinv

/-- `trickle_piece` preserves the board-state invariant. -/
theorem inv_tricklePiece (s : BoardState) (p : Pos) (adj : Bool)
    (h : InvState s) : InvState (tricklePiece s p adj).2 := by
  unfold tricklePiece
  split
  · exact h
  · exact inv_trickleLoop _ _ _ h

/-- One `trickle_column` row step preserves the board-state invariant. -/
theorem inv_trickleColumnStep (x : Nat)
    (acc : List Nat × List (Pos × Pos) × BoardState) (y : Nat)
    (h : InvState acc.2.2) : InvState (trickleColumnStep x acc y).2.2 := by
  obtain ⟨es, mv, s⟩ := acc
  unfold trickleColumnStep
  dsimp only
  split
  · exact h
  · split
    · split
      · exact h
      · exact inv_swapAlways _ _ _ h
    · exact h

/-- A state-threading fold over moves preserves the board-state invariant
if each step does. -/
theorem inv_foldl_moves (step : List (Pos × Pos) × BoardState → Nat →
      List (Pos × Pos) × BoardState)
    (hstep : ∀ acc n, InvState acc.2 → InvState (step acc n).2) :
    ∀ (l : List Nat) (acc : List (Pos × Pos) × BoardState),
      InvState acc.2 → InvState (l.foldl step acc).2 := by
  intro l
  induction l with
  | nil => exact fun _ h => h
  | cons hd tl ih => exact fun acc h => ih _ (hstep acc hd h)

/-- `trickle_column` preserves the board-state invariant. -/
theorem inv_trickleColumn (s : BoardState) (x : Nat) (h : InvState s) :
    InvState (trickleColumn s x).2 := by
  unfold trickleColumn
  have hfold : ∀ (l : List Nat) (acc : List Nat × List (Pos × Pos) × BoardState),
      InvState acc.2.2 → InvState (l.foldl (trickleColumnStep x) acc).2.2 := by
    intro l
    induction l with
    | nil => exact fun _ h2 => h2
    | cons hd tl ih => exact fun acc h2 => ih _ (inv_trickleColumnStep x acc hd h2)
  exact hfold _ _ h

/-- `trickle_diagonally` preserves the board-state invariant. -/
theorem inv_trickleDiagonally (s : BoardState) (h : InvState s) :
    InvState (trickleDiagonally s).2 := by
  unfold trickleDiagonally
  apply inv_foldl_moves
  · intro acc y hacc
    apply inv_foldl_moves
    · intro acc2 x hacc2
      exact inv_tricklePiece _ _ _ hacc2
    · exact hacc
  · exact h

/-- `trickle` preserves the board-state invariant. -/
theorem inv_trickle (s : BoardState) (h : InvState s) : InvState (trickle s).2 := by
  unfold trickle
  apply inv_trickleDiagonally
  apply inv_foldl_moves
  · intro acc x hacc
    exact inv_trickleColumn _ _ hacc
  · exact h

/-- `add_and_trickle` preserves the board-state invariant. -/
theorem inv_addAndTrickleU (s : BoardState) (pos : Pos) (pc : Piece)
    (h : InvState s) : InvState (addAndTrickleU s pos pc).2 := by
  unfold addAndTrickleU
  exact inv_tricklePiece _ _ _ (inv_setPieceU _ _ _ h)

/-- `swap_pieces` preserves the board-state invariant. -/
theorem inv_swapPiecesU (b : Board) (f sec : Pos) (h : InvState b.state) :
    InvState (swapPiecesU b f sec).2.state := by
  unfold swapPiecesU
  split
  · exact inv_swapAlways _ _ _ h
  · exact h

/-- `next_match` preserves the board-state invariant (it only consumes the
change queue). -/
theorem inv_nextMatch (b : Board) (h : InvState b.state) :
    InvState (nextMatch b).2.state :=
  h

/-- Board states reachable from a fresh board through the public
operations: set_piece, swap_pieces, next_match, trickle and
add_and_trickle. -/
inductive Reachable : BoardState → Prop where
  | new (w h : Nat) : Reachable (BoardState.new w h)
  | setPieceStep (s : BoardState) (pos : Pos) (pc : Piece) :
      Reachable s → Reachable (setPieceU s pos pc).2
  | swapPiecesStep (pats : List MatchPattern) (rules : List SwapRule)
      (s : BoardState) (f sec : Pos) :
      Reachable s → Reachable (swapPiecesU ⟨pats, rules, s⟩ f sec).2.state
  | nextMatchStep (pats : List MatchPattern) (rules : List SwapRule)
      (s : BoardState) :
      Reachable s → Reachable (nextMatch ⟨pats, rules, s⟩).2.state
  | trickleStep (s : BoardState) : Reachable s → Reachable (trickle s).2
  | addAndTrickleStep (s : BoardState) (pos : Pos) (pc : Piece) :
      Reachable s → Reachable (addAndTrickleU s pos pc).2

/-- Every reachable board state satisfies the board-state invariant. -/
theorem inv_reachable (s : BoardState) (h : Reachable s) : InvState s := by
  induction h with
  | new w h =>
    constructor
    · exact List.nodup_nil
    · intro q
      exact ⟨fun _ tb htb => absurd htb (List.not_mem_nil tb),
        fun tb1 h1 _ _ _ _ => absurd h1 (List.not_mem_nil tb1)⟩
  | setPieceStep s pos pc _ ih => exact inv_setPieceU s pos pc ih
  | swapPiecesStep pats rules s f sec _ ih => exact inv_swapPiecesU _ f sec ih
  | nextMatchStep pats rules s _ ih => exact inv_nextMatch _ ih
  | trickleStep s _ ih => exact inv_trickle s ih
  | addAndTrickleStep s pos pc _ ih => exact inv_addAndTrickleU s pos pc ih

/-- C2: on every reachable board state, at most one of the empty-mask bit
and the per-type mask bits is set at each cell (the predicate is
preserved by set_piece, swap_pieces, next_match, trickle and
add_and_trickle, which generate reachability), and a cell with no empty
bit and no type bit is exactly one `piece()` reports as a Wall. -/
theorem claimC2_mask_exclusivity (s : BoardState) (h : Reachable s) :
    ExclState s ∧
    ∀ q : Pos, pieceU s q = Piece.wall ↔
      (s.empties.isSet q = false ∧ ∀ tb ∈ s.pieces, tb.2.isSet q = false) := by
  have hinv := inv_reachable s h
  refine ⟨hinv.2, ?_⟩
  intro q
  constructor
  · intro hw
    unfold pieceU at hw
    by_cases he : s.empties.isSet q
    · simp [he] at hw
    · cases hpt : pieceTypeAt s.pieces q with
      | some t => simp [he, hpt] at hw
      | none => exact ⟨by simpa using he, (pieceTypeAt_eq_none_iff _ _).1 hpt⟩
  · intro hng
    unfold pieceU
    simp [hng.1, (pieceTypeAt_eq_none_iff s.pieces q).2 hng.2]

/-- C2 witness: the exclusivity and wall-report properties evaluated on
the reachable fresh 2×2 board after one set_piece. -/
theorem claimC2_mask_exclusivity_witness :
    ExclState (setPieceU (BoardState.new 2 2) ⟨0, 0⟩
      (Piece.regular 'a' allDirections)).2 ∧
    ∀ q : Pos, pieceU (setPieceU (BoardState.new 2 2) ⟨0, 0⟩
        (Piece.regular 'a' allDirections)).2 q = Piece.wall ↔
      ((setPieceU (BoardState.new 2 2) ⟨0, 0⟩
          (Piece.regular 'a' allDirections)).2.empties.isSet q = false ∧
        ∀ tb ∈ (setPieceU (BoardState.new 2 2) ⟨0, 0⟩
          (Piece.regular 'a' allDirections)).2.pieces, tb.2.isSet q = false) :=
  claimC2_mask_exclusivity _
    (Reachable.setPieceStep _ _ _ (Reachable.new 2 2))

/-- A cell is south-stable: empty, not south-movable, on the bottom row,
or with a non-empty cell directly below. -/
def SouthStable (s : BoardState) (p : Pos) : Prop :=
  s.empties.isSet p = true ∨ (s.movableDirections .south).isSet p = false ∨
    p.y = 0 ∨ s.empties.isSet ⟨p.x, p.y - 1⟩ = false

/-- The net effect of a trickle cascade that started at `q` and has its
piece at `r`: outside `q` and `r` the empty mask is unchanged and
non-empty cells keep their movability bits; `q` has been vacated, `r`
(previously empty) holds the piece with its original movability, and the
piece never rises. -/
def MovedRel (s0 : BoardState) (q : Pos) (s : BoardState) (r : Pos) : Prop :=
  (r = q ∧ s = s0) ∨
  (r ≠ q ∧ r.y ≤ q.y ∧
    (∀ p : Pos, p ≠ q → p ≠ r → s.empties.isSet p = s0.empties.isSet p) ∧
    (∀ p : Pos, p ≠ q → p ≠ r → s0.empties.isSet p = false →
      ∀ d, (s.movableDirections d).isSet p = (s0.movableDirections d).isSet p) ∧
    s.empties.isSet q = true ∧ s0.empties.isSet q = false ∧
    s0.empties.isSet r = true ∧ s.empties.isSet r = false ∧
    (∀ d, (s.movableDirections d).isSet r = (s0.movableDirections d).isSet q))

/-- Positions are equal when their coordinates are. -/
theorem Pos.ext_xy {a b : Pos} (hx : a.x = b.x) (hy : a.y = b.y) : a = b := by
  cases a
  cases b
  simp only [Pos.mk.injEq] at *
  exact ⟨hx, hy⟩

/-- Under the cascade relation the current cell is occupied. -/
theorem movedRel_nonempty {s0 : BoardState} {q : Pos} {s : BoardState} {r : Pos}
    (h : MovedRel s0 q s r) (hq : s0.empties.isSet q = false) :
    s.empties.isSet r = false := by
  rcases h with ⟨he, hs⟩ | h
  · rw [he, hs]
    exact hq
  · exact h.2.2.2.2.2.2.2.1

/-- Stability of every cell other than the one above the cascade start is
preserved by the collapsed cascade, given the landed piece is stable. -/
theorem stable_preserved {s0 : BoardState} {q : Pos} {s : BoardState} {r : Pos}
    (h : MovedRel s0 q s r) (hr : SouthStable s r) :
    ∀ p : Pos, SouthStable s0 p → p ≠ ⟨q.x, q.y + 1⟩ → SouthStable s p := by
  intro p hp hab
  rcases h with ⟨he, hs⟩ | ⟨hrq, _, hiso, hmov, heq, _, _, her, _⟩
  · rw [hs]
    exact hp
  · by_cases hpq : p = q
    · rw [hpq]
      exact Or.inl heq
    · by_cases hpr : p = r
      · rw [hpr]
        exact hr
      · by_cases hemp : s0.empties.isSet p = true
        · exact Or.inl (by rw [hiso p hpq hpr]; exact hemp)
        · rcases hp with h1 | h1 | h1 | h1
          · exact absurd h1 hemp
          · refine Or.inr (Or.inl ?_)
            rw [hmov p hpq hpr (by simpa using hemp)]
            exact h1
          · exact Or.inr (Or.inr (Or.inl h1))
          · refine Or.inr (Or.inr (Or.inr ?_))
            by_cases hbq : (⟨p.x, p.y - 1⟩ : Pos) = q
            · exfalso
              have hx : p.x = q.x := by rw [← hbq]
              have hy : p.y - 1 = q.y := by rw [← hbq]
              have hy0 : p.y ≠ 0 := by
                intro h0
                exact hpq (Pos.ext_xy hx (show p.y = q.y by omega))
              exact hab (Pos.ext_xy hx (show p.y = q.y + 1 by omega))
            · by_cases hbr : (⟨p.x, p.y - 1⟩ : Pos) = r
              · rw [hbr]
                exact her
              · rw [hiso _ hbq hbr]
                exact h1

/-- The while loop of `trickle_piece_down` stops on the bottom row or
above a non-empty cell. -/
theorem dropY_stop (s : BoardState) (x : Nat) :
    ∀ y, dropY s x y = 0 ∨ s.empties.isSet ⟨x, dropY s x y - 1⟩ = false := by
  intro y
  induction y with
  | zero => exact Or.inl rfl
  | succ y ih =>
    unfold dropY
    by_cases he : s.empties.isSet ⟨x, y⟩
    · simpa [he] using ih
    · rw [if_neg he]
      refine Or.inr ?_
      simpa using he


/-- When the while loop of `trickle_piece_down` moves, its target cell is
empty. -/
theorem dropY_target_empty (s : BoardState) (x : Nat) :
    ∀ y, dropY s x y < y → s.empties.isSet ⟨x, dropY s x y⟩ = true := by
  intro y
  induction y with
  | zero => intro h; cases h
  | succ y ih =>
    intro hlt
    unfold dropY at hlt ⊢
    by_cases he : s.empties.isSet ⟨x, y⟩
    · rw [if_pos he] at hlt ⊢
      have hle := dropY_le s x y
      by_cases heq : dropY s x y = y
      · rw [heq]
        exact he
      · exact ih (by omega)
    · rw [if_neg he] at hlt
      omega

/-- The swapped-cell map sends the first cell to the second. -/
theorem swapPos_fst (f sec : Pos) : swapPos f sec f = sec := by
  unfold swapPos
  simp

/-- The swapped-cell map sends the second cell to the first. -/
theorem swapPos_snd (f sec : Pos) (h : sec ≠ f) : swapPos f sec sec = f := by
  unfold swapPos
  simp [h]

/-- The swapped-cell map fixes every other cell. -/
theorem swapPos_other (f sec p : Pos) (h1 : p ≠ f) (h2 : p ≠ sec) :
    swapPos f sec p = p := by
  unfold swapPos
  simp [h1, h2]

/-- Extending a collapsed cascade by one swap into a strictly lower empty
cell keeps the cascade relation. -/
theorem movedRel_step {s0 : BoardState} {q : Pos} {s1 : BoardState} {r1 r2 : Pos}
    (h : MovedRel s0 q s1 r1) (hq0 : s0.empties.isSet q = false)
    (hne : r2 ≠ r1) (hy : r2.y < r1.y)
    (hr2 : s1.empties.isSet r2 = true) :
    MovedRel s0 q (swapAlways s1 r1 r2) r2 := by
  have hr1 : s1.empties.isSet r1 = false := movedRel_nonempty h hq0
  have hner : r1 ≠ r2 := fun he => hne he.symm
  have hemp : ∀ p : Pos, (swapAlways s1 r1 r2).empties.isSet p =
      s1.empties.isSet (swapPos r1 r2 p) := by
    intro p
    rw [swapAlways_empties s1 r1 r2 hner, isSet_swap_swapPos]
  have hmovs : ∀ (d : Direction) (p : Pos),
      ((swapAlways s1 r1 r2).movableDirections d).isSet p =
        (s1.movableDirections d).isSet (swapPos r1 r2 p) := by
    intro d p
    rw [swapAlways_movable s1 r1 r2 hner]
    exact isSet_swap_swapPos _ _ _ _
  rcases h with ⟨heq, hs⟩ | ⟨hrq, hry, hiso, hmov, he1, he2, he3, he4, hmv⟩
  · subst heq
    subst hs
    refine Or.inr ⟨hne, by omega, ?_, ?_, ?_, hq0, hr2, ?_, ?_⟩
    · intro p hpq hpr
      rw [hemp p, swapPos_other _ _ _ hpq hpr]
    · intro p hpq hpr _ d
      rw [hmovs d p, swapPos_other _ _ _ hpq hpr]
    · rw [hemp r1, swapPos_fst]
      exact hr2
    · rw [hemp r2, swapPos_snd _ _ hne]
      exact hr1
    · intro d
      rw [hmovs d r2, swapPos_snd _ _ hne]
  · have hr2q : r2 ≠ q := by
      intro he
      have := congrArg Pos.y he
      omega
    have hr2r1 : r2 ≠ r1 := hne
    have hr2s0 : s0.empties.isSet r2 = true := by
      rw [← hiso r2 hr2q hr2r1]
      exact hr2
    refine Or.inr ⟨hr2q, by omega, ?_, ?_, ?_, he2, hr2s0, ?_, ?_⟩
    · intro p hpq hpr
      by_cases hpr1 : p = r1
      · rw [hpr1, hemp r1, swapPos_fst, hr2]
        rw [hpr1] at *
        exact he3.symm
      · rw [hemp p, swapPos_other _ _ _ hpr1 hpr]
        exact hiso p hpq hpr1
    · intro p hpq hpr hps0 d
      by_cases hpr1 : p = r1
      · exfalso
        rw [hpr1] at hps0
        rw [he3] at hps0
        cases hps0
      · rw [hmovs d p, swapPos_other _ _ _ hpr1 hpr]
        exact hmov p hpq hpr1 hps0 d
    · have hqr1 : q ≠ r1 := fun he => hrq he.symm
      rw [hemp q, swapPos_other _ _ _ hqr1 (fun he => hr2q he.symm)]
      exact he1
    · rw [hemp r2, swapPos_snd _ _ hne]
      exact he4
    · intro d
      rw [hmovs d r2, swapPos_snd _ _ hne]
      exact hmv d

/-- `trickle_piece_down` either stays put with the state unchanged or
swaps the piece into a strictly lower empty cell of the same column. -/
theorem tricklePieceDown_cases (s : BoardState) (r : Pos) :
    ((tricklePieceDown s r).1 = r ∧ (tricklePieceDown s r).2 = s) ∨
    ((tricklePieceDown s r).1 ≠ r ∧ (tricklePieceDown s r).1.y < r.y ∧
      s.empties.isSet (tricklePieceDown s r).1 = true ∧
      (tricklePieceDown s r).2 = swapAlways s r (tricklePieceDown s r).1) := by
  unfold tricklePieceDown
  by_cases hm : (s.movableDirections .south).isSet r
  · simp only [hm, Bool.not_true, Bool.false_eq_true, if_false]
    by_cases heq : dropY s r.x r.y = r.y
    · left
      have hsame : (⟨r.x, dropY s r.x r.y⟩ : Pos) = r := Pos.ext_xy rfl heq
      rw [hsame, swapAlways_self]
      exact ⟨rfl, rfl⟩
    · right
      have hlt : dropY s r.x r.y < r.y :=
        lt_of_le_of_ne (dropY_le s r.x r.y) heq
      have hne2 : (⟨r.x, dropY s r.x r.y⟩ : Pos) ≠ r := by
        intro he
        exact heq (congrArg Pos.y he)
      exact ⟨hne2, hlt, dropY_target_empty s r.x r.y hlt, by trivial⟩
  · left
    simp [hm]

/-- After `trickle_piece_down` the moved-to cell is south-stable. -/
theorem tricklePieceDown_stable (s : BoardState) (r : Pos) :
    SouthStable (tricklePieceDown s r).2 (tricklePieceDown s r).1 := by
  unfold tricklePieceDown SouthStable
  by_cases hm : (s.movableDirections .south).isSet r
  · simp only [hm, Bool.not_true, Bool.false_eq_true, if_false]
    by_cases hny0 : dropY s r.x r.y = 0
    · exact Or.inr (Or.inr (Or.inl hny0))
    · rcases dropY_stop s r.x r.y with h0 | hstop
      · exact absurd h0 hny0
      · refine Or.inr (Or.inr (Or.inr ?_))
        show (swapAlways s r ⟨r.x, dropY s r.x r.y⟩).empties.isSet
          ⟨r.x, dropY s r.x r.y - 1⟩ = false
        by_cases hsame : (⟨r.x, dropY s r.x r.y⟩ : Pos) = r
        · rw [hsame, swapAlways_self]
          exact hstop
        · have hle := dropY_le s r.x r.y
          rw [swapAlways_empties s r _ (fun he => hsame he.symm), isSet_swap_swapPos]
          have hb1 : (⟨r.x, dropY s r.x r.y - 1⟩ : Pos) ≠ r := by
            intro he
            have := congrArg Pos.y he
            have hyne : dropY s r.x r.y ≠ r.y := fun hh => hsame (Pos.ext_xy rfl hh)
            simp only at this
            omega
          have hb2 : (⟨r.x, dropY s r.x r.y - 1⟩ : Pos) ≠
              (⟨r.x, dropY s r.x r.y⟩ : Pos) := by
            intro he
            have := congrArg Pos.y he
            simp only at this
            omega
          rw [swapPos_other _ _ _ hb1 hb2]
          exact hstop
  · simp only [hm, Bool.not_false, if_true]
    exact Or.inr (Or.inl (by simpa using hm))

/-- `trickle_piece_to_side` either stays put with the state unchanged or
swaps the piece into a strictly lower empty cell. -/
theorem tricklePieceToSide_cases (s : BoardState) (r : Pos) (w adj : Bool) :
    ((tricklePieceToSide s r w adj).1 = r ∧ (tricklePieceToSide s r w adj).2 = s) ∨
    ((tricklePieceToSide s r w adj).1 ≠ r ∧ (tricklePieceToSide s r w adj).1.y < r.y ∧
      s.empties.isSet (tricklePieceToSide s r w adj).1 = true ∧
      (tricklePieceToSide s r w adj).2 =
        swapAlways s r (tricklePieceToSide s r w adj).1) := by
  unfold tricklePieceToSide
  by_cases hb : canMovePosDownDiagonally s r w
  · have hy0 : 0 < r.y := by
      unfold canMovePosDownDiagonally at hb
      cases w <;> simp_all
    simp only [hb, Bool.not_true, Bool.false_eq_true, if_false]
    split
    · left
      exact ⟨rfl, rfl⟩
    · right
      rename_i hcond
      have hempty : s.empties.isSet (movePosDownDiagonally r w) = true := by
        rcases hcase : s.empties.isSet (movePosDownDiagonally r w) with _ | _
        · rw [hcase] at hcond
          simp at hcond
        · rfl
      have hyy : (movePosDownDiagonally r w).y < r.y := by
        cases w <;> (unfold movePosDownDiagonally; simp only; omega)
      have hner : movePosDownDiagonally r w ≠ r := by
        intro he
        have := congrArg Pos.y he
        omega
      exact ⟨hner, hyy, hempty, rfl⟩
  · left
    simp [hb]

/-- `trickle_piece_diagonally` either stays put with the state unchanged
or swaps the piece into a strictly lower empty cell. -/
theorem tricklePieceDiagonally_cases (s : BoardState) (r : Pos) (adj : Bool) :
    ((tricklePieceDiagonally s r adj).1 = r ∧ (tricklePieceDiagonally s r adj).2 = s) ∨
    ((tricklePieceDiagonally s r adj).1 ≠ r ∧
      (tricklePieceDiagonally s r adj).1.y < r.y ∧
      s.empties.isSet (tricklePieceDiagonally s r adj).1 = true ∧
      (tricklePieceDiagonally s r adj).2 =
        swapAlways s r (tricklePieceDiagonally s r adj).1) := by
  unfold tricklePieceDiagonally
  dsimp only
  by_cases h1 : (tricklePieceToSide s r true adj).1 = r
  · rw [if_pos h1]
    have hwid : (tricklePieceToSide s r true adj).2 = s := by
      rcases tricklePieceToSide_cases s r true adj with ⟨_, h2⟩ | ⟨hne, _⟩
      · exact h2
      · exact absurd h1 hne
    rw [hwid]
    exact tricklePieceToSide_cases s r false adj
  · rw [if_neg h1]
    rcases tricklePieceToSide_cases s r true adj with ⟨he, _⟩ | hr
    · exact absurd he h1
    · exact Or.inr hr

/-- The cascade loop realises the collapsed cascade relation and leaves
its piece south-stable. -/
theorem trickleLoop_moved :
    ∀ y : Nat, ∀ (s0 : BoardState) (q : Pos) (s : BoardState) (pos : Pos) (adj : Bool),
      pos.y = y → MovedRel s0 q s pos → s0.empties.isSet q = false →
      MovedRel s0 q (trickleLoop s pos adj).2.2 (trickleLoop s pos adj).2.1 ∧
      SouthStable (trickleLoop s pos adj).2.2 (trickleLoop s pos adj).2.1 := by
  intro y
  induction y using Nat.strong_induction_on with
  | _ y ih =>
    intro s0 q s pos adj hy hrel hq0
    rw [trickleLoop]
    have hdrel : MovedRel s0 q (tricklePieceDown s pos).2 (tricklePieceDown s pos).1 := by
      rcases tricklePieceDown_cases s pos with ⟨h1, h2⟩ | ⟨hne, hlt, hemp2, hsw⟩
      · rw [h1, h2]
        exact hrel
      · rw [hsw]
        exact movedRel_step hrel hq0 hne hlt hemp2
    have hgrel : MovedRel s0 q
        (tricklePieceDiagonally (tricklePieceDown s pos).2
          (tricklePieceDown s pos).1 adj).2
        (tricklePieceDiagonally (tricklePieceDown s pos).2
          (tricklePieceDown s pos).1 adj).1 := by
      rcases tricklePieceDiagonally_cases (tricklePieceDown s pos).2
          (tricklePieceDown s pos).1 adj with ⟨h1, h2⟩ | ⟨hne, hlt, hemp2, hsw⟩
      · rw [h1, h2]
        exact hdrel
      · rw [hsw]
        exact movedRel_step hdrel hq0 hne hlt hemp2
    split
    · rename_i hgd
      refine ⟨hgrel, ?_⟩
      have hgs : (tricklePieceDiagonally (tricklePieceDown s pos).2
          (tricklePieceDown s pos).1 adj).2 = (tricklePieceDown s pos).2 := by
        rcases tricklePieceDiagonally_cases (tricklePieceDown s pos).2
            (tricklePieceDown s pos).1 adj with ⟨_, h2⟩ | ⟨hne, _⟩
        · exact h2
        · exact absurd hgd hne
      show SouthStable (tricklePieceDiagonally (tricklePieceDown s pos).2
        (tricklePieceDown s pos).1 adj).2 (tricklePieceDiagonally
          (tricklePieceDown s pos).2 (tricklePieceDown s pos).1 adj).1
      rw [hgs, hgd]
      exact tricklePieceDown_stable s pos
    · rename_i hgd
      have hd := tricklePieceDown_fst s pos
      rcases tricklePieceDiagonally_cases (tricklePieceDown s pos).2
          (tricklePieceDown s pos).1 adj with ⟨h1, _⟩ | ⟨_, hlt, _, _⟩
      · exact absurd h1 hgd
      · exact ih _ (by omega) s0 q _ _ adj rfl hgrel hq0

/-- `trickle_piece` leaves the processed cell south-stable and preserves
the stability of every cell other than the one directly above it. -/
theorem tricklePiece_stable (s : BoardState) (q : Pos) (adj : Bool) :
    SouthStable (tricklePiece s q adj).2 q ∧
    ∀ p : Pos, SouthStable s p → p ≠ ⟨q.x, q.y + 1⟩ →
      SouthStable (tricklePiece s q adj).2 p := by
  unfold tricklePiece
  by_cases he : s.empties.isSet q
  · simp only [he, if_true]
    exact ⟨Or.inl he, fun p hp _ => hp⟩
  · simp only [he, Bool.false_eq_true, if_false]
    have hq0 : s.empties.isSet q = false := by simpa using he
    obtain ⟨hrel, hstab⟩ := trickleLoop_moved q.y s q s q adj rfl
      (Or.inl ⟨rfl, rfl⟩) hq0
    constructor
    · rcases hrel with ⟨hrq, _⟩ | hgen
      · have h2 := hstab
        rw [hrq] at h2
        exact h2
      · exact Or.inl hgen.2.2.2.2.1
    · intro p hp hab
      exact stable_preserved hrel hstab p hp hab

/-- Scanning one row left to right with `trickle_piece` stabilises the
row's cells and keeps every already-stable cell of lower rows stable. -/
theorem scanRow_stable (y : Nat) :
    ∀ (xs : List Nat) (acc : List (Pos × Pos) × BoardState) (P : Pos → Prop),
      (∀ p, P p → SouthStable acc.2 p) →
      (∀ p, P p → p.y ≤ y) →
      ∀ p : Pos, (P p ∨ (p.y = y ∧ p.x ∈ xs)) →
        SouthStable (xs.foldl (fun acc2 x =>
          let r := tricklePiece acc2.2 ⟨x, y⟩ true
          (acc2.1 ++ r.1, r.2)) acc).2 p := by
  intro xs
  induction xs with
  | nil =>
    intro acc P hP _ p hp
    rcases hp with hp | ⟨_, hx⟩
    · exact hP p hp
    · simp at hx
  | cons x rest ih =>
    intro acc P hP hPy p hp
    rw [List.foldl_cons]
    refine ih _ (fun p2 => P p2 ∨ p2 = ⟨x, y⟩) ?_ ?_ p ?_
    · intro p2 hp2
      rcases hp2 with hp2 | hp2
      · refine (tricklePiece_stable acc.2 ⟨x, y⟩ true).2 p2 (hP p2 hp2) ?_
        intro heq
        have h1 := hPy p2 hp2
        rw [heq] at h1
        simp only [] at h1
        omega
      · rw [hp2]
        exact (tricklePiece_stable acc.2 ⟨x, y⟩ true).1
    · intro p2 hp2
      rcases hp2 with hp2 | hp2
      · exact hPy p2 hp2
      · rw [hp2]
    · rcases hp with hp | ⟨hpy, hpx⟩
      · exact Or.inl (Or.inl hp)
      · rcases List.mem_cons.1 hpx with he | he
        · exact Or.inl (Or.inr (Pos.ext_xy he hpy))
        · exact Or.inr ⟨hpy, he⟩

/-- Scanning the rows bottom to top stabilises every scanned cell. -/
theorem scanRows_stable (w : Nat) :
    ∀ (ys : List Nat) (acc0 : List (Pos × Pos) × BoardState) (P : Pos → Prop),
      (∀ p, P p → SouthStable acc0.2 p) →
      (∀ p y2, P p → y2 ∈ ys → p.y ≤ y2) →
      List.Pairwise (· ≤ ·) ys →
      ∀ p : Pos, (P p ∨ (p.y ∈ ys ∧ p.x ∈ List.range w)) →
        SouthStable (ys.foldl (fun acc y =>
          (List.range w).foldl (fun acc2 x =>
            let r := tricklePiece acc2.2 ⟨x, y⟩ true
            (acc2.1 ++ r.1, r.2)) acc) acc0).2 p := by
  intro ys
  induction ys with
  | nil =>
    intro acc0 P hP _ _ p hp
    rcases hp with hp | ⟨hy, _⟩
    · exact hP p hp
    · simp at hy
  | cons y rest ih =>
    intro acc0 P hP hPy hpair p hp
    rw [List.foldl_cons]
    have hpair2 := List.pairwise_cons.1 hpair
    refine ih _ (fun p2 => P p2 ∨ (p2.y = y ∧ p2.x ∈ List.range w)) ?_ ?_ hpair2.2 p ?_
    · intro p2 hp2
      exact scanRow_stable y (List.range w) acc0 P hP
        (fun p3 hp3 => hPy p3 y hp3 (List.mem_cons_self y rest)) p2 hp2
    · intro p2 y2 hp2 hy2
      rcases hp2 with hp2 | ⟨hp2y, _⟩
      · exact hPy p2 y2 hp2 (List.mem_cons.2 (Or.inr hy2))
      · rw [hp2y]
        exact hpair2.1 y2 hy2
    · rcases hp with hp | ⟨hpy, hpx⟩
      · exact Or.inl (Or.inl hp)
      · rcases List.mem_cons.1 hpy with he | he
        · exact Or.inl (Or.inr ⟨he, hpx⟩)
        · exact Or.inr ⟨he, hpx⟩

/-- After the diagonal-diffusion scan, every cell of the board is
south-stable. -/
theorem trickleDiagonally_stable (s : BoardState) :
    ∀ p : Pos, p.x < s.width → p.y < s.height →
      SouthStable (trickleDiagonally s).2 p := by
  intro p hx hy
  unfold trickleDiagonally
  exact scanRows_stable s.width (List.range s.height) ([], s) (fun _ => False)
    (fun _ h => h.elim) (fun _ _ h _ => h.elim)
    ((List.pairwise_lt_range s.height).imp Nat.le_of_lt) p
    (Or.inr ⟨List.mem_range.2 hy, List.mem_range.2 hx⟩)

/-- One `trickle_column` row step never changes the board dimensions. -/
theorem trickleColumnStep_dims (x : Nat)
    (acc : List Nat × List (Pos × Pos) × BoardState) (y : Nat) :
    (trickleColumnStep x acc y).2.2.width = acc.2.2.width ∧
    (trickleColumnStep x acc y).2.2.height = acc.2.2.height := by
  obtain ⟨es, mv, s⟩ := acc
  unfold trickleColumnStep
  dsimp only
  split
  · exact ⟨rfl, rfl⟩
  · split
    · split
      · exact ⟨rfl, rfl⟩
      · exact swapAlways_dims _ _ _
    · exact ⟨rfl, rfl⟩

/-- `trickle_column` never changes the board dimensions. -/
theorem trickleColumn_dims (s : BoardState) (x : Nat) :
    (trickleColumn s x).2.width = s.width ∧ (trickleColumn s x).2.height = s.height := by
  unfold trickleColumn
  have hfold : ∀ (l : List Nat) (acc : List Nat × List (Pos × Pos) × BoardState),
      (l.foldl (trickleColumnStep x) acc).2.2.width = acc.2.2.width ∧
      (l.foldl (trickleColumnStep x) acc).2.2.height = acc.2.2.height := by
    intro l
    induction l with
    | nil => exact fun _ => ⟨rfl, rfl⟩
    | cons hd tl ih =>
      intro acc
      rw [List.foldl_cons]
      have h1 := trickleColumnStep_dims x acc hd
      have h2 := ih (trickleColumnStep x acc hd)
      exact ⟨h2.1.trans h1.1, h2.2.trans h1.2⟩
  exact hfold _ _

/-- The column-compaction fold never changes the board dimensions. -/
theorem trickleColsFold_dims :
    ∀ (xs : List Nat) (acc : List (Pos × Pos) × BoardState),
      ((xs.foldl (fun acc x =>
          let r := trickleColumn acc.2 x
          (acc.1 ++ r.1, r.2)) acc).2.width = acc.2.width ∧
        (xs.foldl (fun acc x =>
          let r := trickleColumn acc.2 x
          (acc.1 ++ r.1, r.2)) acc).2.height = acc.2.height) := by
  intro xs
  induction xs with
  | nil => exact fun _ => ⟨rfl, rfl⟩
  | cons hd tl ih =>
    intro acc
    rw [List.foldl_cons]
    have h1 := trickleColumn_dims acc.2 hd
    have h2 := ih ((acc.1 ++ (trickleColumn acc.2 hd).1, (trickleColumn acc.2 hd).2))
    exact ⟨h2.1.trans h1.1, h2.2.trans h1.2⟩

/-- C1: after `trickle()`, every in-bounds cell holding a Regular piece
that is movable South and whose cell directly below is in bounds has a
non-empty cell directly below — no single-step straight-down fall remains
anywhere on the board. -/
theorem claimC1_gravity_terminal (s : BoardState) (p : Pos)
    (hx : p.x < s.width) (hy : p.y < s.height) (hby : 1 ≤ p.y)
    (t : PieceType) (dirs : Dirs)
    (hpiece : pieceU (trickle s).2 p = Piece.regular t dirs)
    (hsouth : dirs.south = true) :
    (trickle s).2.empties.isSet ⟨p.x, p.y - 1⟩ = false := by
  have hstable : SouthStable (trickle s).2 p := by
    unfold trickle
    dsimp only
    have hd := trickleColsFold_dims (List.range s.width) ([], s)
    apply trickleDiagonally_stable
    · rw [hd.1]
      exact hx
    · rw [hd.2]
      exact hy
  have hne : (trickle s).2.empties.isSet p = false := by
    by_cases h : (trickle s).2.empties.isSet p
    · unfold pieceU at hpiece
      rw [if_pos h] at hpiece
      exact Piece.noConfusion hpiece
    · simpa using h
  have hsou : ((trickle s).2.movableDirections .south).isSet p = true := by
    unfold pieceU at hpiece
    simp only [hne, Bool.false_eq_true, if_false] at hpiece
    cases hpt : pieceTypeAt (trickle s).2.pieces p with
    | none =>
      rw [hpt] at hpiece
      exact Piece.noConfusion hpiece
    | some t2 =>
      rw [hpt] at hpiece
      injection hpiece with h1 h2
      rw [← h2] at hsouth
      exact hsouth
  rcases hstable with h | h | h | h
  · rw [h] at hne
    cases hne
  · rw [h] at hsou
    cases hsou
  · omega
  · exact h

/-- The cascade loop on a piece that can move neither down nor
diagonally returns immediately. -/
theorem trickleLoop_fixed (s : BoardState) (pos : Pos) (adj : Bool)
    (hdown1 : (tricklePieceDown s pos).1 = pos)
    (hdown2 : (tricklePieceDown s pos).2 = s)
    (hdiag1 : (tricklePieceDiagonally s pos adj).1 = pos)
    (hdiag2 : (tricklePieceDiagonally s pos adj).2 = s) :
    trickleLoop s pos adj = ([], pos, s) := by
  rw [trickleLoop]
  rw [hdown1, hdown2, hdiag1, hdiag2]
  simp [hdiag1]

/-- The board used to witness the gravity terminal state: a 1×2 board
holding one all-movable piece resting on a wall. -/
def c1WitState : BoardState :=
  (setPieceU (BoardState.new 1 2) ⟨0, 1⟩ (Piece.regular 'a' allDirections)).2

/-- `trickle_piece` is a no-op on both cells of the witness board. -/
theorem c1WitState_tricklePiece (pos : Pos) (hp : pos = ⟨0, 0⟩ ∨ pos = ⟨0, 1⟩) :
    tricklePiece c1WitState pos true = ([], c1WitState) := by
  have hfix : trickleLoop c1WitState pos true = ([], pos, c1WitState) := by
    rcases hp with hp | hp <;>
      (subst hp
       exact trickleLoop_fixed _ _ _ rfl rfl rfl rfl)
  unfold tricklePiece
  rcases hp with hp | hp <;>
    (subst hp
     rw [if_neg (by decide)]
     rw [hfix])


/-- The witness board is already settled: `trickle` leaves it unchanged. -/
theorem c1WitState_trickle : (trickle c1WitState).2 = c1WitState := by
  unfold trickle
  dsimp only
  have hcols : (List.range c1WitState.width).foldl (fun acc x =>
      let r := trickleColumn acc.2 x
      (acc.1 ++ r.1, r.2)) ([], c1WitState) = ([], c1WitState) := by
    rfl
  rw [hcols]
  have hdiag : trickleDiagonally c1WitState = ([], c1WitState) := by
    unfold trickleDiagonally
    have hh : List.range c1WitState.height = [0, 1] := rfl
    have hw : List.range c1WitState.width = [0] := rfl
    rw [hh, hw]
    simp only [List.foldl_cons, List.foldl_nil]
    rw [c1WitState_tricklePiece ⟨0, 0⟩ (Or.inl rfl)]
    rw [c1WitState_tricklePiece ⟨0, 1⟩ (Or.inr rfl)]
    rfl
  rw [show ((([] : List (Pos × Pos)), c1WitState)).2 = c1WitState from rfl, hdiag]

/-- C1 witness: the gravity terminal-state property evaluated on the
settled 1×2 witness board at its occupied cell. -/
theorem claimC1_gravity_terminal_witness :
    (trickle c1WitState).2.empties.isSet ⟨0, 0⟩ = false :=
  claimC1_gravity_terminal c1WitState ⟨0, 1⟩ (by decide) (by decide) (by decide)
    'a' allDirections (by rw [c1WitState_trickle]; rfl) rfl

/-- Two board states restored from the same serialized content: all plain
fields coincide, and the per-type maps (HashMaps, whose internal order is
not determined by their content) have nodup keys and equal lookups. -/
def StateEquiv (s1 s2 : BoardState) : Prop :=
  s1.width = s2.width ∧ s1.height = s2.height ∧ s1.empties = s2.empties ∧
  s1.movableDirections = s2.movableDirections ∧ s1.lastChanged = s2.lastChanged ∧
  (s1.pieces.map Prod.fst).Nodup ∧ (s2.pieces.map Prod.fst).Nodup ∧
  ∀ t : PieceType, lookupType s1.pieces t = lookupType s2.pieces t

/-- The determinism invariant: equivalent restored states that both
satisfy mask exclusivity. -/
def DetInv (s1 s2 : BoardState) : Prop :=
  StateEquiv s1 s2 ∧ ExclState s1 ∧ ExclState s2

/-- Lookup on a cons cell. -/
theorem lookupType_cons (hd : PieceType × BitBoard) (tl : List (PieceType × BitBoard))
    (t : PieceType) :
    lookupType (hd :: tl) t = if hd.1 = t then some hd.2 else lookupType tl t := by
  unfold lookupType
  by_cases hh : hd.1 = t
  · rw [List.find?_cons_of_pos _ (by simpa using hh), if_pos hh]
    rfl
  · rw [List.find?_cons_of_neg _ (by simpa using hh), if_neg hh]

/-- Lookup distributes over append. -/
theorem lookupType_append (l1 l2 : List (PieceType × BitBoard)) (t : PieceType) :
    lookupType (l1 ++ l2) t =
      match lookupType l1 t with
      | some b => some b
      | none => lookupType l2 t := by
  unfold lookupType
  rw [List.find?_append]
  cases hf : l1.find? (fun tb => tb.1 = t) with
  | some v => simp [hf]
  | none => simp [hf]

/-- Lookup after `and_modify`. -/
theorem lookupType_modifyEntry (t0 : PieceType) (f : BitBoard → BitBoard)
    (l : List (PieceType × BitBoard)) (t : PieceType) :
    lookupType (modifyEntry t0 f l) t =
      if t = t0 then (lookupType l t0).map f else lookupType l t := by
  induction l with
  | nil =>
    by_cases ht : t = t0 <;> simp [modifyEntry, lookupType, ht]
  | cons hd tl ih =>
    by_cases hh : hd.1 = t0
    · rw [modifyEntry, if_pos hh, lookupType_cons]
      by_cases hht : hd.1 = t
      · have ht : t = t0 := by rw [← hht, hh]
        rw [if_pos hht, if_pos ht, lookupType_cons, if_pos hh]
        rfl
      · have ht : ¬t = t0 := by
          intro he
          apply hht
          rw [hh, he]
        rw [if_neg hht, if_neg ht, lookupType_cons, if_neg hht]
    · rw [modifyEntry, if_neg hh, lookupType_cons]
      by_cases hht : hd.1 = t
      · have ht : ¬t = t0 := by
          intro he
          apply hh
          rw [hht, he]
        rw [if_pos hht, if_neg ht, lookupType_cons, if_pos hht]
      · rw [if_neg hht, ih]
        by_cases ht : t = t0
        · rw [if_pos ht, if_pos ht, lookupType_cons, if_neg hh]
        · rw [if_neg ht, if_neg ht, lookupType_cons, if_neg hht]

/-- Lookup after `and_modify(..).or_insert_with(..)`. -/
theorem lookupType_modifyOrInsert (t0 : PieceType) (f : BitBoard → BitBoard)
    (dflt : BitBoard) (l : List (PieceType × BitBoard)) (t : PieceType) :
    lookupType (modifyOrInsert t0 f dflt l) t =
      if t = t0 then
        (match lookupType l t0 with
          | some b => some (f b)
          | none => some dflt)
      else lookupType l t := by
  unfold modifyOrInsert
  by_cases hp : (l.find? (fun tb => tb.1 = t0)).isSome
  · rw [if_pos hp, lookupType_modifyEntry]
    by_cases ht : t = t0
    · rw [if_pos ht, if_pos ht]
      obtain ⟨tb, htb⟩ := Option.isSome_iff_exists.1 hp
      have hl : lookupType l t0 = some tb.2 := by
        unfold lookupType
        rw [htb]
        rfl
      rw [hl]
      rfl
    · rw [if_neg ht, if_neg ht]
  · rw [if_neg hp]
    have hnone : lookupType l t0 = none := by
      unfold lookupType
      rcases hf : l.find? (fun tb => tb.1 = t0) with _ | v
      · rw [hf]
        rfl
      · exact absurd (by rw [hf]; rfl) hp
    rw [lookupType_append]
    by_cases ht : t = t0
    · subst ht
      rw [hnone, if_pos rfl, lookupType_cons, if_pos rfl]
    · rw [if_neg ht]
      cases hf : lookupType l t with
      | some v => rfl
      | none =>
        rw [lookupType_cons, if_neg (fun he => ht he.symm)]
        rfl

/-- With nodup keys, membership determines the lookup. -/
theorem lookupType_of_mem {l : List (PieceType × BitBoard)}
    (hnod : (l.map Prod.fst).Nodup) {t : PieceType} {b : BitBoard}
    (h : (t, b) ∈ l) : lookupType l t = some b := by
  induction l with
  | nil => cases h
  | cons hd tl ih =>
    rw [List.map_cons, List.nodup_cons] at hnod
    rcases List.mem_cons.1 h with he | he
    · unfold lookupType
      rw [← he]
      rw [List.find?_cons_of_pos _ (by simp)]
      rfl
    · have hkey : hd.1 ≠ t := by
        intro hk
        apply hnod.1
        rw [hk]
        exact List.mem_map.2 ⟨(t, b), he, rfl⟩
      unfold lookupType
      rw [List.find?_cons_of_neg _ (by simpa using hkey)]
      exact ih hnod.2 he

/-- Membership transfers between nodup-keyed lists with equal lookups. -/
theorem mem_congr_of_lookup {l1 l2 : List (PieceType × BitBoard)}
    (hnod1 : (l1.map Prod.fst).Nodup) (hnod2 : (l2.map Prod.fst).Nodup)
    (hlook : ∀ t, lookupType l1 t = lookupType l2 t)
    (t : PieceType) (b : BitBoard) : (t, b) ∈ l1 ↔ (t, b) ∈ l2 := by
  constructor
  · intro h
    have := lookupType_of_mem hnod1 h
    rw [hlook t] at this
    exact mem_of_lookupType _ _ _ this
  · intro h
    have := lookupType_of_mem hnod2 h
    rw [← hlook t] at this
    exact mem_of_lookupType _ _ _ this

/-- `piece_type` does not depend on the map's iteration order, under mask
exclusivity. -/
theorem pieceTypeAt_congr {l1 l2 : List (PieceType × BitBoard)} {q : Pos}
    (hnod1 : (l1.map Prod.fst).Nodup) (hnod2 : (l2.map Prod.fst).Nodup)
    (hlook : ∀ t, lookupType l1 t = lookupType l2 t)
    (hpair1 : ∀ tb1 ∈ l1, ∀ tb2 ∈ l1,
      tb1.2.isSet q = true → tb2.2.isSet q = true → tb1.1 = tb2.1) :
    pieceTypeAt l1 q = pieceTypeAt l2 q := by
  have hmem := mem_congr_of_lookup hnod1 hnod2 hlook
  have hpair2 : ∀ tb1 ∈ l2, ∀ tb2 ∈ l2,
      tb1.2.isSet q = true → tb2.2.isSet q = true → tb1.1 = tb2.1 := by
    intro tb1 h1 tb2 h2 hs1 hs2
    exact hpair1 tb1 ((hmem tb1.1 tb1.2).2 h1) tb2 ((hmem tb2.1 tb2.2).2 h2) hs1 hs2
  cases hpt : pieceTypeAt l1 q with
  | some t =>
    obtain ⟨b, hb, hset⟩ := pieceTypeAt_some_mem hpt
    exact (pieceTypeAt_of_mem hpair2 ((hmem t b).1 hb) hset).symm
  | none =>
    have hall := (pieceTypeAt_eq_none_iff l1 q).1 hpt
    refine ((pieceTypeAt_eq_none_iff l2 q).2 ?_).symm
    intro tb htb
    exact hall tb ((hmem tb.1 tb.2).2 htb)

/-- Mask exclusivity transfers along state equivalence. -/
theorem excl_congr {s1 s2 : BoardState} (he : StateEquiv s1 s2)
    (hex : ExclState s1) : ExclState s2 := by
  obtain ⟨_, _, hemp, _, _, hnod1, hnod2, hlook⟩ := he
  have hmem := mem_congr_of_lookup hnod1 hnod2 hlook
  intro q
  constructor
  · intro hqe tb htb
    rw [← hemp] at hqe
    exact (hex q).1 hqe tb ((hmem tb.1 tb.2).2 htb)
  · intro tb1 h1 tb2 h2 hs1 hs2
    exact (hex q).2 tb1 ((hmem tb1.1 tb1.2).2 h1) tb2 ((hmem tb2.1 tb2.2).2 h2) hs1 hs2

/-- Equivalent states report the same piece type everywhere. -/
theorem det_pieceTypeAt {s1 s2 : BoardState} (h : DetInv s1 s2) (q : Pos) :
    pieceTypeAt s1.pieces q = pieceTypeAt s2.pieces q := by
  obtain ⟨⟨_, _, _, _, _, hnod1, hnod2, hlook⟩, hex1, _⟩ := h
  exact pieceTypeAt_congr hnod1 hnod2 hlook (hex1 q).2

/-- Equivalent states report the same piece everywhere. -/
theorem det_pieceU {s1 s2 : BoardState} (h : DetInv s1 s2) (q : Pos) :
    pieceU s1 q = pieceU s2 q := by
  have hpt := det_pieceTypeAt h q
  obtain ⟨⟨_, _, hemp, hmov, _, _, _, _⟩, _, _⟩ := h
  unfold pieceU
  unfold BoardState.movableDirsAt
  rw [hemp, hpt, hmov]

/-- Lookup after the clearing step of `set_piece`. -/
theorem lookupType_clearTypeBit (l : List (PieceType × BitBoard)) (pos : Pos)
    (t : PieceType) :
    lookupType (clearTypeBit l pos) t =
      match pieceTypeAt l pos with
      | some t0 =>
        if t = t0 then (lookupType l t0).map (fun b => b.unset pos)
        else lookupType l t
      | none => lookupType l t := by
  unfold clearTypeBit
  cases hpt : pieceTypeAt l pos with
  | none => rfl
  | some t0 => exact lookupType_modifyEntry t0 _ l t

/-- Lookup after the type-mask swap step of `swap_always`. -/
theorem lookupType_swapTypeEntry (ot : Option PieceType) (f sec : Pos)
    (l : List (PieceType × BitBoard)) (t : PieceType) :
    lookupType (swapTypeEntry ot f sec l) t =
      match ot with
      | some a =>
        if t = a then (lookupType l a).map (fun b => b.swap f sec)
        else lookupType l t
      | none => lookupType l t := by
  cases ot with
  | none => rfl
  | some a => exact lookupType_modifyEntry a _ l t

/-- `set_piece` never changes the board dimensions. -/
theorem setPieceU_dims (s : BoardState) (pos : Pos) (pc : Piece) :
    (setPieceU s pos pc).2.width = s.width ∧ (setPieceU s pos pc).2.height = s.height := by
  cases pc <;> exact ⟨rfl, rfl⟩

/-- The movability masks `set_piece` leaves behind, by piece case. -/
theorem setPieceU_movable (s : BoardState) (pos : Pos) (pc : Piece) :
    (setPieceU s pos pc).2.movableDirections = fun dir =>
      if (match pc with
        | .regular _ d => d
        | .empty => allDirections
        | .wall => noDirections).mem dir then (s.movableDirections dir).set pos
      else (s.movableDirections dir).unset pos := by
  cases pc <;> rfl

/-- The change queue `set_piece` leaves behind. -/
theorem setPieceU_lastChanged (s : BoardState) (pos : Pos) (pc : Piece) :
    (setPieceU s pos pc).2.lastChanged = s.lastChanged ++ [pos] := by
  cases pc <;> rfl

/-- `set_piece` returns the previous piece. -/
theorem setPieceU_fst (s : BoardState) (pos : Pos) (pc : Piece) :
    (setPieceU s pos pc).1 = pieceU s pos := by
  cases pc <;> rfl

/-- `set_piece` preserves state equivalence and returns equal pieces. -/
theorem det_setPieceU {s1 s2 : BoardState} (h : DetInv s1 s2) (pos : Pos) (pc : Piece) :
    (setPieceU s1 pos pc).1 = (setPieceU s2 pos pc).1 ∧
    DetInv (setPieceU s1 pos pc).2 (setPieceU s2 pos pc).2 := by
  have hpt := det_pieceTypeAt h pos
  have hpu := det_pieceU h pos
  obtain ⟨⟨hw, hh, hemp, hmov, hq, hnod1, hnod2, hlook⟩, hex1, hex2⟩ := h
  have hinv1 : InvState (setPieceU s1 pos pc).2 :=
    inv_setPieceU s1 pos pc ⟨hnod1, hex1⟩
  have hinv2 : InvState (setPieceU s2 pos pc).2 :=
    inv_setPieceU s2 pos pc ⟨hnod2, hex2⟩
  have hlookc : ∀ t, lookupType (clearTypeBit s1.pieces pos) t =
      lookupType (clearTypeBit s2.pieces pos) t := by
    intro t
    rw [lookupType_clearTypeBit, lookupType_clearTypeBit, hpt]
    cases pieceTypeAt s2.pieces pos with
    | none => exact hlook t
    | some t0 =>
      dsimp only
      by_cases ht : t = t0
      · rw [if_pos ht, if_pos ht, hlook]
      · rw [if_neg ht, if_neg ht, hlook]
  have hpieces : ∀ t, lookupType (setPieceU s1 pos pc).2.pieces t =
      lookupType (setPieceU s2 pos pc).2.pieces t := by
    intro t
    rw [setPieceU_pieces, setPieceU_pieces]
    cases pc with
    | regular t2 dirs =>
      rw [lookupType_modifyOrInsert, lookupType_modifyOrInsert]
      by_cases ht : t = t2
      · rw [if_pos ht, if_pos ht, hlookc]
      · rw [if_neg ht, if_neg ht, hlookc]
    | empty => exact hlookc t
    | wall => exact hlookc t
  refine ⟨by rw [setPieceU_fst, setPieceU_fst, hpu], ⟨?_, hinv1.2, hinv2.2⟩⟩
  refine ⟨?_, ?_, ?_, ?_, ?_, hinv1.1, hinv2.1, hpieces⟩
  · rw [(setPieceU_dims s1 pos pc).1, (setPieceU_dims s2 pos pc).1, hw]
  · rw [(setPieceU_dims s1 pos pc).2, (setPieceU_dims s2 pos pc).2, hh]
  · rw [setPieceU_empties, setPieceU_empties, hemp]
  · rw [setPieceU_movable, setPieceU_movable, hmov]
  · rw [setPieceU_lastChanged, setPieceU_lastChanged, hq]

/-- `swap_always` preserves state equivalence. -/
theorem det_swapAlways {s1 s2 : BoardState} (h : DetInv s1 s2) (f sec : Pos) :
    DetInv (swapAlways s1 f sec) (swapAlways s2 f sec) := by
  by_cases hne : f = sec
  · rw [hne, swapAlways_self, swapAlways_self]
    exact h
  have hptf := det_pieceTypeAt h f
  have hpts := det_pieceTypeAt h sec
  obtain ⟨⟨hw, hh, hemp, hmov, hq, hnod1, hnod2, hlook⟩, hex1, hex2⟩ := h
  have hinv1 := inv_swapAlways s1 f sec ⟨hnod1, hex1⟩
  have hinv2 := inv_swapAlways s2 f sec ⟨hnod2, hex2⟩
  have hcongr : ∀ (ot : Option PieceType) (l1 l2 : List (PieceType × BitBoard)),
      (∀ t, lookupType l1 t = lookupType l2 t) →
      ∀ t, lookupType (swapTypeEntry ot f sec l1) t =
        lookupType (swapTypeEntry ot f sec l2) t := by
    intro ot l1 l2 hl t
    rw [lookupType_swapTypeEntry, lookupType_swapTypeEntry]
    cases ot with
    | none => exact hl t
    | some a =>
      dsimp only
      by_cases hta : t = a
      · rw [if_pos hta, if_pos hta, hl]
      · rw [if_neg hta, if_neg hta, hl]
  refine ⟨⟨?_, ?_, ?_, ?_, ?_, hinv1.1, hinv2.1, ?_⟩, hinv1.2, hinv2.2⟩
  · rw [(swapAlways_dims s1 f sec).1, (swapAlways_dims s2 f sec).1, hw]
  · rw [(swapAlways_dims s1 f sec).2, (swapAlways_dims s2 f sec).2, hh]
  · rw [swapAlways_empties s1 f sec hne, swapAlways_empties s2 f sec hne, hemp]
  · rw [swapAlways_movable s1 f sec hne, swapAlways_movable s2 f sec hne, hmov]
  · rw [swapAlways_lastChanged s1 f sec hne, swapAlways_lastChanged s2 f sec hne, hq]
  · intro t
    rw [swapAlways_pieces s1 f sec hne, swapAlways_pieces s2 f sec hne, hptf, hpts]
    by_cases ht : pieceTypeAt s2.pieces f = pieceTypeAt s2.pieces sec
    · rw [if_pos ht, if_pos ht]
      exact hlook t
    · rw [if_neg ht, if_neg ht]
      exact hcongr (pieceTypeAt s2.pieces sec) _ _
        (hcongr (pieceTypeAt s2.pieces f) _ _ hlook) t

/-- The straight-down scan depends only on the empty mask. -/
theorem det_dropY {s1 s2 : BoardState} (hemp : s1.empties = s2.empties) (x : Nat) :
    ∀ y, dropY s1 x y = dropY s2 x y := by
  intro y
  induction y with
  | zero => rfl
  | succ y ih =>
    unfold dropY
    rw [hemp, ih]

/-- `trickle_piece_down` preserves state equivalence and lands at the same
cell. -/
theorem det_tricklePieceDown {s1 s2 : BoardState} (h : DetInv s1 s2) (p : Pos) :
    (tricklePieceDown s1 p).1 = (tricklePieceDown s2 p).1 ∧
    DetInv (tricklePieceDown s1 p).2 (tricklePieceDown s2 p).2 := by
  have hemp : s1.empties = s2.empties := h.1.2.2.1
  have hmov : s1.movableDirections = s2.movableDirections := h.1.2.2.2.1
  unfold tricklePieceDown
  rw [hmov, det_dropY hemp p.x p.y]
  split
  · exact ⟨rfl, h⟩
  · exact ⟨rfl, det_swapAlways h p ⟨p.x, dropY s2 p.x p.y⟩⟩

/-- `trickle_piece_to_side` preserves state equivalence and lands at the
same cell. -/
theorem det_tricklePieceToSide {s1 s2 : BoardState} (h : DetInv s1 s2) (p : Pos)
    (w adj : Bool) :
    (tricklePieceToSide s1 p w adj).1 = (tricklePieceToSide s2 p w adj).1 ∧
    DetInv (tricklePieceToSide s1 p w adj).2 (tricklePieceToSide s2 p w adj).2 := by
  have hw : s1.width = s2.width := h.1.1
  have hemp : s1.empties = s2.empties := h.1.2.2.1
  have hmov : s1.movableDirections = s2.movableDirections := h.1.2.2.2.1
  have hcan : canMovePosDownDiagonally s1 p w = canMovePosDownDiagonally s2 p w := by
    unfold canMovePosDownDiagonally
    cases w
    · rw [hw]
    · rfl
  unfold tricklePieceToSide
  rw [hcan, hemp, hmov]
  split
  · exact ⟨rfl, h⟩
  · cases w <;> dsimp only <;> split
    · exact ⟨rfl, h⟩
    · exact ⟨rfl, det_swapAlways h p (movePosDownDiagonally p false)⟩
    · exact ⟨rfl, h⟩
    · exact ⟨rfl, det_swapAlways h p (movePosDownDiagonally p true)⟩

/-- `trickle_piece_diagonally` preserves state equivalence and lands at
the same cell. -/
theorem det_tricklePieceDiagonally {s1 s2 : BoardState} (h : DetInv s1 s2) (p : Pos)
    (adj : Bool) :
    (tricklePieceDiagonally s1 p adj).1 = (tricklePieceDiagonally s2 p adj).1 ∧
    DetInv (tricklePieceDiagonally s1 p adj).2 (tricklePieceDiagonally s2 p adj).2 := by
  obtain ⟨hfst1, hsnd1⟩ := det_tricklePieceToSide h p true adj
  unfold tricklePieceDiagonally
  dsimp only
  by_cases hcase : (tricklePieceToSide s1 p true adj).1 = p
  · rw [if_pos hcase, if_pos (by rw [← hfst1]; exact hcase)]
    exact det_tricklePieceToSide hsnd1 p false adj
  · rw [if_neg hcase, if_neg (by rw [← hfst1]; exact hcase)]
    exact ⟨hfst1, hsnd1⟩

/-- One-step unfolding of the cascade loop, with the branches written out. -/
theorem trickleLoop_eq (s : BoardState) (pos : Pos) (adj : Bool) :
    trickleLoop s pos adj =
      if (tricklePieceDiagonally (tricklePieceDown s pos).2
            (tricklePieceDown s pos).1 adj).1 = (tricklePieceDown s pos).1 then
        ((if pos ≠ (tricklePieceDown s pos).1
            then [(pos, (tricklePieceDown s pos).1)] else []),
          (tricklePieceDiagonally (tricklePieceDown s pos).2
            (tricklePieceDown s pos).1 adj).1,
          (tricklePieceDiagonally (tricklePieceDown s pos).2
            (tricklePieceDown s pos).1 adj).2)
      else
        ((if pos ≠ (tricklePieceDown s pos).1
            then [(pos, (tricklePieceDown s pos).1)] else []) ++
          ((tricklePieceDown s pos).1,
            (tricklePieceDiagonally (tricklePieceDown s pos).2
              (tricklePieceDown s pos).1 adj).1) ::
          (trickleLoop (tricklePieceDiagonally (tricklePieceDown s pos).2
              (tricklePieceDown s pos).1 adj).2
            (tricklePieceDiagonally (tricklePieceDown s pos).2
              (tricklePieceDown s pos).1 adj).1 adj).1,
          (trickleLoop (tricklePieceDiagonally (tricklePieceDown s pos).2
              (tricklePieceDown s pos).1 adj).2
            (tricklePieceDiagonally (tricklePieceDown s pos).2
              (tricklePieceDown s pos).1 adj).1 adj).2) := by
  rw [trickleLoop]
  split <;> rfl

/-- The cascade loop preserves state equivalence and produces the same
move list and landing cell on equivalent states. -/
theorem det_trickleLoop :
    ∀ y : Nat, ∀ (s1 s2 : BoardState) (pos : Pos) (adj : Bool), pos.y = y →
      DetInv s1 s2 →
      (trickleLoop s1 pos adj).1 = (trickleLoop s2 pos adj).1 ∧
      (trickleLoop s1 pos adj).2.1 = (trickleLoop s2 pos adj).2.1 ∧
      DetInv (trickleLoop s1 pos adj).2.2 (trickleLoop s2 pos adj).2.2 := by
  intro y
  induction y using Nat.strong_induction_on with
  | _ y ih =>
    intro s1 s2 pos adj hy h
    obtain ⟨hdf, hds⟩ := det_tricklePieceDown h pos
    obtain ⟨hgf0, hgs0⟩ := det_tricklePieceDiagonally hds (tricklePieceDown s1 pos).1 adj
    rw [trickleLoop_eq s1 pos adj, trickleLoop_eq s2 pos adj, ← hdf]
    by_cases hc : (tricklePieceDiagonally (tricklePieceDown s1 pos).2
        (tricklePieceDown s1 pos).1 adj).1 = (tricklePieceDown s1 pos).1
    · have hc2 : (tricklePieceDiagonally (tricklePieceDown s2 pos).2
          (tricklePieceDown s1 pos).1 adj).1 = (tricklePieceDown s1 pos).1 := by
        rw [← hgf0]
        exact hc
      rw [if_pos hc, if_pos hc2]
      exact ⟨rfl, hgf0, hgs0⟩
    · have hc2 : ¬ (tricklePieceDiagonally (tricklePieceDown s2 pos).2
          (tricklePieceDown s1 pos).1 adj).1 = (tricklePieceDown s1 pos).1 := by
        rw [← hgf0]
        exact hc
      rw [if_neg hc, if_neg hc2, ← hgf0]
      have hlt : (tricklePieceDiagonally (tricklePieceDown s1 pos).2
          (tricklePieceDown s1 pos).1 adj).1.y < y := by
        rcases tricklePieceDiagonally_fst (tricklePieceDown s1 pos).2
            (tricklePieceDown s1 pos).1 adj with h1 | h1
        · exact absurd h1 hc
        · have h2 := (tricklePieceDown_fst s1 pos).2
          omega
      obtain ⟨ihl, ihp, ihs⟩ := ih _ hlt _ _ _ adj rfl hgs0
      exact ⟨by rw [ihl], ihp, ihs⟩

/-- `trickle_piece` preserves state equivalence and reports the same moves. -/
theorem det_tricklePiece {s1 s2 : BoardState} (h : DetInv s1 s2) (p : Pos)
    (adj : Bool) :
    (tricklePiece s1 p adj).1 = (tricklePiece s2 p adj).1 ∧
    DetInv (tricklePiece s1 p adj).2 (tricklePiece s2 p adj).2 := by
  have hemp : s1.empties = s2.empties := h.1.2.2.1
  unfold tricklePiece
  rw [hemp]
  split
  · exact ⟨rfl, h⟩
  · obtain ⟨hl, _, hs⟩ := det_trickleLoop p.y s1 s2 p adj rfl h
    exact ⟨hl, hs⟩

/-- One step of the column-compaction scan preserves state equivalence. -/
theorem det_trickleColumnStep (x : Nat) {s1 s2 : BoardState} (h : DetInv s1 s2)
    (es : List Nat) (mv : List (Pos × Pos)) (y : Nat) :
    (trickleColumnStep x (es, mv, s1) y).1 = (trickleColumnStep x (es, mv, s2) y).1 ∧
    (trickleColumnStep x (es, mv, s1) y).2.1 =
      (trickleColumnStep x (es, mv, s2) y).2.1 ∧
    DetInv (trickleColumnStep x (es, mv, s1) y).2.2
      (trickleColumnStep x (es, mv, s2) y).2.2 := by
  have hemp : s1.empties = s2.empties := h.1.2.2.1
  have hmov : s1.movableDirections = s2.movableDirections := h.1.2.2.2.1
  cases es with
  | nil =>
    simp only [trickleColumnStep]
    rw [hemp, hmov]
    split
    · exact ⟨rfl, rfl, h⟩
    · split
      · exact ⟨rfl, rfl, h⟩
      · exact ⟨rfl, rfl, h⟩
  | cons a rest =>
    simp only [trickleColumnStep]
    rw [hemp, hmov]
    split
    · exact ⟨rfl, rfl, h⟩
    · split
      · exact ⟨rfl, rfl, det_swapAlways h ⟨x, y⟩ ⟨x, a⟩⟩
      · exact ⟨rfl, rfl, h⟩

/-- The column-compaction fold preserves state equivalence. -/
theorem det_trickleColFold (x : Nat) :
    ∀ (ys : List Nat) (es : List Nat) (mv : List (Pos × Pos)) {s1 s2 : BoardState},
      DetInv s1 s2 →
      (ys.foldl (trickleColumnStep x) (es, mv, s1)).1 =
        (ys.foldl (trickleColumnStep x) (es, mv, s2)).1 ∧
      (ys.foldl (trickleColumnStep x) (es, mv, s1)).2.1 =
        (ys.foldl (trickleColumnStep x) (es, mv, s2)).2.1 ∧
      DetInv (ys.foldl (trickleColumnStep x) (es, mv, s1)).2.2
        (ys.foldl (trickleColumnStep x) (es, mv, s2)).2.2 := by
  intro ys
  induction ys with
  | nil =>
    intro es mv s1 s2 h
    exact ⟨rfl, rfl, h⟩
  | cons y ys ih =>
    intro es mv s1 s2 h
    obtain ⟨h1, h2, h3⟩ := det_trickleColumnStep x h es mv y
    rw [List.foldl_cons, List.foldl_cons,
      show trickleColumnStep x (es, mv, s1) y =
        ((trickleColumnStep x (es, mv, s1) y).1,
          (trickleColumnStep x (es, mv, s1) y).2.1,
          (trickleColumnStep x (es, mv, s1) y).2.2) from rfl,
      show trickleColumnStep x (es, mv, s2) y =
        ((trickleColumnStep x (es, mv, s2) y).1,
          (trickleColumnStep x (es, mv, s2) y).2.1,
          (trickleColumnStep x (es, mv, s2) y).2.2) from rfl,
      h1, h2]
    exact ih _ _ h3

/-- `trickle_column` preserves state equivalence and reports the same moves. -/
theorem det_trickleColumn {s1 s2 : BoardState} (h : DetInv s1 s2) (x : Nat) :
    (trickleColumn s1 x).1 = (trickleColumn s2 x).1 ∧
    DetInv (trickleColumn s1 x).2 (trickleColumn s2 x).2 := by
  have hh : s1.height = s2.height := h.1.2.1
  unfold trickleColumn
  rw [hh]
  obtain ⟨_, h2, h3⟩ := det_trickleColFold x (List.range s2.height) [] [] h
  exact ⟨h2, h3⟩

/-- The per-column phase of `trickle` preserves state equivalence. -/
theorem det_trickleColsFold :
    ∀ (xs : List Nat) (mv : List (Pos × Pos)) {s1 s2 : BoardState}, DetInv s1 s2 →
      (xs.foldl (fun acc x =>
          let r := trickleColumn acc.2 x
          (acc.1 ++ r.1, r.2)) (mv, s1)).1 =
        (xs.foldl (fun acc x =>
          let r := trickleColumn acc.2 x
          (acc.1 ++ r.1, r.2)) (mv, s2)).1 ∧
      DetInv (xs.foldl (fun acc x =>
          let r := trickleColumn acc.2 x
          (acc.1 ++ r.1, r.2)) (mv, s1)).2
        (xs.foldl (fun acc x =>
          let r := trickleColumn acc.2 x
          (acc.1 ++ r.1, r.2)) (mv, s2)).2 := by
  intro xs
  induction xs with
  | nil =>
    intro mv s1 s2 h
    exact ⟨rfl, h⟩
  | cons x xs ih =>
    intro mv s1 s2 h
    obtain ⟨h1, h2⟩ := det_trickleColumn h x
    rw [List.foldl_cons, List.foldl_cons]
    dsimp only
    rw [h1]
    exact ih _ h2

/-- One row of the diagonal-diffusion scan preserves state equivalence. -/
theorem det_scanRowFold (y : Nat) :
    ∀ (xs : List Nat) (mv : List (Pos × Pos)) {s1 s2 : BoardState}, DetInv s1 s2 →
      (xs.foldl (fun acc2 x =>
          let r := tricklePiece acc2.2 ⟨x, y⟩ true
          (acc2.1 ++ r.1, r.2)) (mv, s1)).1 =
        (xs.foldl (fun acc2 x =>
          let r := tricklePiece acc2.2 ⟨x, y⟩ true
          (acc2.1 ++ r.1, r.2)) (mv, s2)).1 ∧
      DetInv (xs.foldl (fun acc2 x =>
          let r := tricklePiece acc2.2 ⟨x, y⟩ true
          (acc2.1 ++ r.1, r.2)) (mv, s1)).2
        (xs.foldl (fun acc2 x =>
          let r := tricklePiece acc2.2 ⟨x, y⟩ true
          (acc2.1 ++ r.1, r.2)) (mv, s2)).2 := by
  intro xs
  induction xs with
  | nil =>
    intro mv s1 s2 h
    exact ⟨rfl, h⟩
  | cons x xs ih =>
    intro mv s1 s2 h
    obtain ⟨h1, h2⟩ := det_tricklePiece h ⟨x, y⟩ true
    rw [List.foldl_cons, List.foldl_cons]
    dsimp only
    rw [h1]
    exact ih _ h2

/-- The row-major diagonal-diffusion fold preserves state equivalence. -/
theorem det_scanRowsFold (w : Nat) :
    ∀ (ys : List Nat) (mv : List (Pos × Pos)) {s1 s2 : BoardState}, DetInv s1 s2 →
      (ys.foldl (fun acc y => (List.range w).foldl (fun acc2 x =>
          let r := tricklePiece acc2.2 ⟨x, y⟩ true
          (acc2.1 ++ r.1, r.2)) acc) (mv, s1)).1 =
        (ys.foldl (fun acc y => (List.range w).foldl (fun acc2 x =>
          let r := tricklePiece acc2.2 ⟨x, y⟩ true
          (acc2.1 ++ r.1, r.2)) acc) (mv, s2)).1 ∧
      DetInv (ys.foldl (fun acc y => (List.range w).foldl (fun acc2 x =>
          let r := tricklePiece acc2.2 ⟨x, y⟩ true
          (acc2.1 ++ r.1, r.2)) acc) (mv, s1)).2
        (ys.foldl (fun acc y => (List.range w).foldl (fun acc2 x =>
          let r := tricklePiece acc2.2 ⟨x, y⟩ true
          (acc2.1 ++ r.1, r.2)) acc) (mv, s2)).2 := by
  intro ys
  induction ys with
  | nil =>
    intro mv s1 s2 h
    exact ⟨rfl, h⟩
  | cons y ys ih =>
    intro mv s1 s2 h
    obtain ⟨h1, h2⟩ := det_scanRowFold y (List.range w) mv h
    rw [List.foldl_cons, List.foldl_cons]
    dsimp only
    rw [show (List.range w).foldl (fun acc2 x =>
        let r := tricklePiece acc2.2 ⟨x, y⟩ true
        (acc2.1 ++ r.1, r.2)) (mv, s1) =
      (((List.range w).foldl (fun acc2 x =>
        let r := tricklePiece acc2.2 ⟨x, y⟩ true
        (acc2.1 ++ r.1, r.2)) (mv, s1)).1,
       ((List.range w).foldl (fun acc2 x =>
        let r := tricklePiece acc2.2 ⟨x, y⟩ true
        (acc2.1 ++ r.1, r.2)) (mv, s1)).2) from rfl,
      show (List.range w).foldl (fun acc2 x =>
        let r := tricklePiece acc2.2 ⟨x, y⟩ true
        (acc2.1 ++ r.1, r.2)) (mv, s2) =
      (((List.range w).foldl (fun acc2 x =>
        let r := tricklePiece acc2.2 ⟨x, y⟩ true
        (acc2.1 ++ r.1, r.2)) (mv, s2)).1,
       ((List.range w).foldl (fun acc2 x =>
        let r := tricklePiece acc2.2 ⟨x, y⟩ true
        (acc2.1 ++ r.1, r.2)) (mv, s2)).2) from rfl,
      h1]
    exact ih _ h2

/-- `trickle_diagonally` preserves state equivalence and reports the same
moves. -/
theorem det_trickleDiagonally {s1 s2 : BoardState} (h : DetInv s1 s2) :
    (trickleDiagonally s1).1 = (trickleDiagonally s2).1 ∧
    DetInv (trickleDiagonally s1).2 (trickleDiagonally s2).2 := by
  have hw : s1.width = s2.width := h.1.1
  have hh : s1.height = s2.height := h.1.2.1
  unfold trickleDiagonally
  rw [hw, hh]
  exact det_scanRowsFold s2.width (List.range s2.height) [] h

/-- `trickle` preserves state equivalence and reports the same moves. -/
theorem det_trickle {s1 s2 : BoardState} (h : DetInv s1 s2) :
    (trickle s1).1 = (trickle s2).1 ∧ DetInv (trickle s1).2 (trickle s2).2 := by
  have hw : s1.width = s2.width := h.1.1
  unfold trickle
  rw [hw]
  obtain ⟨c1, c2⟩ := det_trickleColsFold (List.range s2.width) [] h
  obtain ⟨d1, d2⟩ := det_trickleDiagonally c2
  dsimp only
  rw [c1, d1]
  exact ⟨rfl, d2⟩

/-- `add_and_trickle` preserves state equivalence and reports the same
moves. -/
theorem det_addAndTrickleU {s1 s2 : BoardState} (h : DetInv s1 s2) (pos : Pos)
    (pc : Piece) :
    (addAndTrickleU s1 pos pc).1 = (addAndTrickleU s2 pos pc).1 ∧
    DetInv (addAndTrickleU s1 pos pc).2 (addAndTrickleU s2 pos pc).2 := by
  obtain ⟨_, h2⟩ := det_setPieceU h pos pc
  unfold addAndTrickleU
  exact det_tricklePiece h2 pos false

/-- The pattern search of `next_match` sees only the per-type map's
contents, not its entry order. -/
theorem det_matchAt (patterns : List MatchPattern)
    {l1 l2 : List (PieceType × BitBoard)}
    (hl : ∀ t, lookupType l1 t = lookupType l2 t) (pos : Pos) :
    matchAt patterns l1 pos = matchAt patterns l2 pos := by
  unfold matchAt
  simp only [hl]

/-- The queue-draining loop of `next_match` sees only the per-type map's
contents. -/
theorem det_nextMatchGo (patterns : List MatchPattern)
    {l1 l2 : List (PieceType × BitBoard)}
    (hl : ∀ t, lookupType l1 t = lookupType l2 t) :
    ∀ q : List Pos, nextMatchGo patterns l1 q = nextMatchGo patterns l2 q := by
  intro q
  induction q with
  | nil => rfl
  | cons p rest ih =>
    simp only [nextMatchGo]
    rw [det_matchAt patterns hl p]
    cases matchAt patterns l2 p with
    | some m => rfl
    | none => exact ih

/-- A swap-rule chain whose verdicts depend only on the board contents,
not on the per-type map's entry order.  Every rule implementable through
the board's public interface has this property. -/
def RespectfulRules (rules : List SwapRule) : Prop :=
  ∀ rule ∈ rules, ∀ s1 s2 : BoardState, ∀ first sec : Pos,
    StateEquiv s1 s2 → rule s1 first sec = rule s2 first sec

/-- A respectful rule chain gives the same overall verdict on equivalent
states. -/
theorem all_rules_congr {rules : List SwapRule} (hresp : RespectfulRules rules)
    {s1 s2 : BoardState} (he : StateEquiv s1 s2) (f sec : Pos) :
    rules.all (fun rule => rule s1 f sec) = rules.all (fun rule => rule s2 f sec) := by
  induction rules with
  | nil => rfl
  | cons r rs ih =>
    simp only [List.all_cons]
    rw [hresp r (List.mem_cons_self r rs) s1 s2 f sec he,
      ih (fun rule hm => hresp rule (List.mem_cons_of_mem r hm))]

/-- The built-in movability rule is respectful: it reads only the
movability masks. -/
theorem arePiecesMovable_respectful {s1 s2 : BoardState} (he : StateEquiv s1 s2)
    (f sec : Pos) : arePiecesMovable s1 f sec = arePiecesMovable s2 f sec := by
  have hmov : s1.movableDirections = s2.movableDirections := he.2.2.2.1
  unfold arePiecesMovable isMovablePiece isVerticallyMovable isHorizontallyMovable
  rw [hmov]

/-- Two boards that restore the same serialized state: identical patterns
and rule chain (the program is the same), a respectful rule chain, and
equivalent states. -/
def BoardDetInv (b1 b2 : Board) : Prop :=
  b1.patterns = b2.patterns ∧ b1.swapRules = b2.swapRules ∧
  RespectfulRules b1.swapRules ∧ DetInv b1.state b2.state

/-- `swap_pieces` preserves board equivalence and returns the same verdict. -/
theorem det_swapPiecesU {b1 b2 : Board} (h : BoardDetInv b1 b2) (f sec : Pos) :
    (swapPiecesU b1 f sec).1 = (swapPiecesU b2 f sec).1 ∧
    BoardDetInv (swapPiecesU b1 f sec).2 (swapPiecesU b2 f sec).2 := by
  obtain ⟨hp, hr, hresp, hdet⟩ := h
  have hall : b1.swapRules.all (fun rule => rule b1.state f sec) =
      b2.swapRules.all (fun rule => rule b2.state f sec) := by
    rw [← hr]
    exact all_rules_congr hresp hdet.1 f sec
  unfold swapPiecesU
  rw [hall]
  by_cases hc : b2.swapRules.all (fun rule => rule b2.state f sec) = true
  · rw [if_pos hc, if_pos hc]
    exact ⟨rfl, hp, hr, hresp, det_swapAlways hdet f sec⟩
  · rw [if_neg hc, if_neg hc]
    exact ⟨rfl, hp, hr, hresp, hdet⟩

/-- `next_match` preserves board equivalence and returns the same match. -/
theorem det_nextMatch {b1 b2 : Board} (h : BoardDetInv b1 b2) :
    (nextMatch b1).1 = (nextMatch b2).1 ∧
    BoardDetInv (nextMatch b1).2 (nextMatch b2).2 := by
  obtain ⟨hp, hr, hresp, hdet⟩ := h
  obtain ⟨⟨hw, hh, hemp, hmov, hq, hnod1, hnod2, hlook⟩, hex1, hex2⟩ := hdet
  have hgo : nextMatchGo b1.patterns b1.state.pieces b1.state.lastChanged =
      nextMatchGo b2.patterns b2.state.pieces b2.state.lastChanged := by
    rw [hp, hq]
    exact det_nextMatchGo b2.patterns hlook b2.state.lastChanged
  unfold nextMatch
  dsimp only
  rw [hgo]
  exact ⟨rfl, hp, hr, hresp,
    ⟨⟨hw, hh, hemp, hmov, rfl, hnod1, hnod2, hlook⟩, hex1, hex2⟩⟩

/-- One public engine operation of a replayed session. -/
inductive EngineOp where
  | setPiece (pos : Pos) (pc : Piece)
  | swapPieces (first second : Pos)
  | nextMatchStep
  | trickleStep
  | addAndTrickleStep (pos : Pos) (pc : Piece)

/-- The observable return value of one engine operation (`panicked`
models `OutOfBounds`). -/
inductive OpOut where
  | panicked
  | prev (pc : Piece)
  | swapped (ok : Bool)
  | matched (m : Option BoardMatch)
  | moves (l : List (Pos × Pos))

/-- Run one engine operation on a board, returning its observable value
and the next board. -/
def runOp (b : Board) : EngineOp → OpOut × Board
  | .setPiece pos pc =>
    match setPieceOp b.state pos pc with
    | none => (.panicked, b)
    | some r => (.prev r.1, { b with state := r.2 })
  | .swapPieces f sec =>
    match swapPiecesOp b f sec with
    | none => (.panicked, b)
    | some r => (.swapped r.1, r.2)
  | .nextMatchStep =>
    (.matched (nextMatch b).1, (nextMatch b).2)
  | .trickleStep =>
    (.moves (trickle b.state).1, { b with state := (trickle b.state).2 })
  | .addAndTrickleStep pos pc =>
    match addAndTrickleOp b.state pos pc with
    | none => (.panicked, b)
    | some r => (.moves r.1, { b with state := r.2 })

/-- Run a whole operation sequence, collecting the observable values. -/
def runOps (b : Board) : List EngineOp → List OpOut × Board
  | [] => ([], b)
  | op :: rest =>
    let r := runOp b op
    let rs := runOps r.2 rest
    (r.1 :: rs.1, rs.2)

/-- One replayed operation gives the same observable value on equivalent
boards and preserves board equivalence. -/
theorem det_runOp {b1 b2 : Board} (h : BoardDetInv b1 b2) (op : EngineOp) :
    (runOp b1 op).1 = (runOp b2 op).1 ∧
    BoardDetInv (runOp b1 op).2 (runOp b2 op).2 := by
  obtain ⟨hp, hr, hresp, hdet⟩ := h
  have hw : b1.state.width = b2.state.width := hdet.1.1
  have hh : b1.state.height = b2.state.height := hdet.1.2.1
  have hwit : ∀ pos : Pos, b1.state.within pos = b2.state.within pos := by
    intro pos
    unfold BoardState.within
    rw [hw, hh]
  cases op with
  | setPiece pos pc =>
    simp only [runOp, setPieceOp]
    rw [hwit pos]
    by_cases hc : b2.state.within pos = true
    · rw [if_pos hc, if_pos hc]
      obtain ⟨h1, h2⟩ := det_setPieceU hdet pos pc
      exact ⟨by dsimp only; rw [h1], hp, hr, hresp, h2⟩
    · rw [if_neg hc, if_neg hc]
      exact ⟨rfl, hp, hr, hresp, hdet⟩
  | swapPieces f sec =>
    simp only [runOp, swapPiecesOp]
    rw [hwit f, hwit sec]
    by_cases hc : (b2.state.within f && b2.state.within sec) = true
    · rw [if_pos hc, if_pos hc]
      obtain ⟨h1, h2⟩ := det_swapPiecesU ⟨hp, hr, hresp, hdet⟩ f sec
      exact ⟨by dsimp only; rw [h1], h2⟩
    · rw [if_neg hc, if_neg hc]
      exact ⟨rfl, hp, hr, hresp, hdet⟩
  | nextMatchStep =>
    obtain ⟨h1, h2⟩ := det_nextMatch ⟨hp, hr, hresp, hdet⟩
    simp only [runOp]
    rw [h1]
    exact ⟨rfl, h2⟩
  | trickleStep =>
    obtain ⟨h1, h2⟩ := det_trickle hdet
    simp only [runOp]
    rw [h1]
    exact ⟨rfl, hp, hr, hresp, h2⟩
  | addAndTrickleStep pos pc =>
    simp only [runOp, addAndTrickleOp]
    rw [hwit pos]
    by_cases hc : b2.state.within pos = true
    · rw [if_pos hc, if_pos hc]
      obtain ⟨h1, h2⟩ := det_addAndTrickleU hdet pos pc
      exact ⟨by dsimp only; rw [h1], hp, hr, hresp, h2⟩
    · rw [if_neg hc, if_neg hc]
      exact ⟨rfl, hp, hr, hresp, hdet⟩

/-- A replayed operation sequence gives the same observable values on
equivalent boards and preserves board equivalence. -/
theorem det_runOps :
    ∀ (ops : List EngineOp) {b1 b2 : Board}, BoardDetInv b1 b2 →
      (runOps b1 ops).1 = (runOps b2 ops).1 ∧
      BoardDetInv (runOps b1 ops).2 (runOps b2 ops).2 := by
  intro ops
  induction ops with
  | nil =>
    intro b1 b2 h
    exact ⟨rfl, h⟩
  | cons op rest ih =>
    intro b1 b2 h
    obtain ⟨h1, h2⟩ := det_runOp h op
    obtain ⟨h3, h4⟩ := ih h2
    simp only [runOps]
    rw [h1, h3]
    exact ⟨rfl, h4⟩

/-- C8: for every saved board state and every sequence of public
operations (`set_piece`, `swap_pieces`, `next_match`, `trickle`,
`add_and_trickle`), running the sequence from two restorations of the
identical serialized state — same dimensions, masks, change queue, and
per-type map contents, in any `HashMap` entry order, with the same
patterns and a rule chain whose verdicts depend only on board contents —
produces identical return values and identical final state contents. -/
theorem claimC8_replay_determinism {b1 b2 : Board} (h : BoardDetInv b1 b2)
    (ops : List EngineOp) :
    (runOps b1 ops).1 = (runOps b2 ops).1 ∧
    StateEquiv (runOps b1 ops).2.state (runOps b2 ops).2.state := by
  obtain ⟨h1, h2⟩ := det_runOps ops h
  exact ⟨h1, h2.2.2.2.1⟩

/-- A concrete replayed session: a fresh 2×2 board and one operation of
each kind. -/
def c8WitBoard : Board := Board.new (BoardState.new 2 2) [] []

/-- The operation sequence of the concrete replayed session. -/
def c8WitOps : List EngineOp :=
  [.setPiece ⟨0, 1⟩ (Piece.regular 'a' allDirections), .swapPieces ⟨0, 1⟩ ⟨1, 1⟩,
    .nextMatchStep, .trickleStep, .addAndTrickleStep ⟨0, 0⟩ (Piece.regular 'b' allDirections)]

/-- Witness for C8 at a concrete board and operation sequence. -/
theorem claimC8_replay_determinism_witness :
    BoardDetInv c8WitBoard c8WitBoard ∧
    ((runOps c8WitBoard c8WitOps).1 = (runOps c8WitBoard c8WitOps).1 ∧
      StateEquiv (runOps c8WitBoard c8WitOps).2.state
        (runOps c8WitBoard c8WitOps).2.state) := by
  have hresp : RespectfulRules c8WitBoard.swapRules := by
    intro rule hm s1 s2 f sec he
    have hrule : rule = arePiecesMovable := by
      simpa [c8WitBoard, Board.new] using hm
    rw [hrule]
    exact arePiecesMovable_respectful he f sec
  have hex : ExclState c8WitBoard.state := by
    intro q
    constructor
    · intro _ tb hm
      exact absurd hm (List.not_mem_nil tb)
    · intro tb1 hm1 tb2 hm2 _ _
      exact absurd hm1 (List.not_mem_nil tb1)
  have hdet : BoardDetInv c8WitBoard c8WitBoard :=
    ⟨rfl, rfl, hresp,
      ⟨rfl, rfl, rfl, rfl, rfl, List.nodup_nil, List.nodup_nil, fun t => rfl⟩,
      hex, hex⟩
  exact ⟨hdet, claimC8_replay_determinism hdet c8WitOps⟩

end SwapMatch
